import Mathlib

/-!
# Verification of the stringi character-class scan/splice core

A shallow embedding of the character-class locate/replace engine from
`src/stri_search_class_locate.cpp` and the replace translation unit
(`stri_replace_all_charclass`, `stri__replace_firstlast_charclass`).

Byte strings are `List Nat` (byte values), a character class is its
`contains` predicate `Nat → Bool` over decoded code points, missing values
(`NA`) are `Option.none`, and the per-call abort on a malformed UTF-8 byte
sequence (`throw StriException(MSG__INVALID_UTF8)` caught at the call
boundary) is the `Except` error.  The scanning loops are embedded with an
explicit fuel argument (one unit per decoded code point) so that every
definition is executable and kernel-reducible; every top-level entry point
supplies `s.length` fuel, which is always sufficient since each decoded
code point consumes at least one byte.
-/

/-- The single terminal error of the engine: a malformed UTF-8 byte
sequence, `MSG__INVALID_UTF8` in the source. -/
inductive StriErr where
  | invalidUTF8
deriving DecidableEq, Repr

/-- A UTF-8 continuation (trail) byte: `0x80 ≤ b ≤ 0xBF`. -/
def isTrail (b : Nat) : Bool := 0x80 ≤ b && b < 0xC0

/-- Valid second byte of a three-byte sequence headed by `b0`
(ICU `U8_NEXT` strictness: no overlongs, no surrogates). -/
def validE (b0 b1 : Nat) : Bool :=
  if b0 = 0xE0 then 0xA0 ≤ b1 && b1 < 0xC0
  else if b0 = 0xED then 0x80 ≤ b1 && b1 < 0xA0
  else isTrail b1

/-- Valid second byte of a four-byte sequence headed by `b0`
(ICU `U8_NEXT` strictness: no overlongs, nothing above U+10FFFF). -/
def validF (b0 b1 : Nat) : Bool :=
  if b0 = 0xF0 then 0x90 ≤ b1 && b1 < 0xC0
  else if b0 = 0xF4 then 0x80 ≤ b1 && b1 < 0x90
  else isTrail b1

/-- `U8_NEXT`: decode the code point at the head of the byte list, returning
the code point and the number of bytes it occupies, or `none` on a
malformed sequence (in the source, `chr < 0`). -/
def decodeNext : List Nat → Option (Nat × Nat)
  | [] => none
  | b0 :: rest =>
    if b0 < 0x80 then some (b0, 1)
    else if b0 < 0xC2 then none
    else if b0 < 0xE0 then
      match rest with
      | b1 :: _ => if isTrail b1 then some ((b0 - 0xC0) * 0x40 + (b1 - 0x80), 2) else none
      | [] => none
    else if b0 < 0xF0 then
      match rest with
      | b1 :: b2 :: _ =>
        if validE b0 b1 && isTrail b2 then
          some ((b0 - 0xE0) * 0x1000 + (b1 - 0x80) * 0x40 + (b2 - 0x80), 3)
        else none
      | _ => none
    else if b0 < 0xF5 then
      match rest with
      | b1 :: b2 :: b3 :: _ =>
        if validF b0 b1 && isTrail b2 && isTrail b3 then
          some ((b0 - 0xF0) * 0x40000 + (b1 - 0x80) * 0x1000 + (b2 - 0x80) * 0x40 + (b3 - 0x80), 4)
        else none
      | _ => none
    else none

/-- Full forward decode of a byte string into its `(codepoint, width)`
sequence; `none` iff some position holds a malformed sequence. -/
def decodeListGo : Nat → List Nat → Option (List (Nat × Nat))
  | _, [] => some []
  | fuel, rem =>
    match fuel, decodeNext rem with
    | _, none => none
    | 0, some _ => none
    | fuel + 1, some (cp, w) => (decodeListGo fuel (rem.drop w)).map ((cp, w) :: ·)

/-- A byte string is well-formed UTF-8 iff `decodeList` succeeds. -/
def decodeList (s : List Nat) : Option (List (Nat × Nat)) := decodeListGo s.length s

/-- Total byte width of a decoded prefix. -/
def wsum (L : List (Nat × Nat)) : Nat := (L.map (·.2)).sum

theorem wsum_nil : wsum [] = 0 := rfl

theorem wsum_cons (p : Nat × Nat) (L : List (Nat × Nat)) :
    wsum (p :: L) = p.2 + wsum L := by
  simp [wsum]

theorem wsum_append (L₁ L₂ : List (Nat × Nat)) :
    wsum (L₁ ++ L₂) = wsum L₁ + wsum L₂ := by
  simp [wsum]

theorem validE_trail {b0 b1 : Nat} (h : validE b0 b1 = true) : isTrail b1 = true := by
  unfold validE at h
  split_ifs at h with e1 e2 <;>
    [skip; skip; exact h] <;>
    · rcases Bool.and_eq_true_iff.mp h with ⟨ha, hb⟩
      simp only [decide_eq_true_eq] at ha hb
      unfold isTrail
      simp only [Bool.and_eq_true, decide_eq_true_eq]
      omega

theorem validF_trail {b0 b1 : Nat} (h : validF b0 b1 = true) : isTrail b1 = true := by
  unfold validF at h
  split_ifs at h with f1 f2 <;>
    [skip; skip; exact h] <;>
    · rcases Bool.and_eq_true_iff.mp h with ⟨ha, hb⟩
      simp only [decide_eq_true_eq] at ha hb
      unfold isTrail
      simp only [Bool.and_eq_true, decide_eq_true_eq]
      omega

theorem decodeNext_inv {l : List Nat} {cp w : Nat} (h : decodeNext l = some (cp, w)) :
    (w = 1 ∧ ∃ b0 t, l = b0 :: t) ∨
    (w = 2 ∧ ∃ b0 b1 t, l = b0 :: b1 :: t ∧ isTrail b1 = true) ∨
    (w = 3 ∧ ∃ b0 b1 b2 t, l = b0 :: b1 :: b2 :: t ∧ isTrail b1 = true ∧ isTrail b2 = true) ∨
    (w = 4 ∧ ∃ b0 b1 b2 b3 t, l = b0 :: b1 :: b2 :: b3 :: t ∧
      isTrail b1 = true ∧ isTrail b2 = true ∧ isTrail b3 = true) := by
  rcases l with _ | ⟨b0, rest⟩
  · exact absurd h (by simp [decodeNext])
  · rw [decodeNext.eq_def] at h
    simp only at h
    split_ifs at h with h1 h2 h3 h4 h5
    · simp only [Option.some.injEq, Prod.mk.injEq] at h
      exact Or.inl ⟨h.2.symm, b0, rest, rfl⟩
    · rcases rest with _ | ⟨b1, t⟩
      · exact Option.noConfusion h
      · dsimp only at h
        split_ifs at h with ht
        simp only [Option.some.injEq, Prod.mk.injEq] at h
        exact Or.inr (Or.inl ⟨h.2.symm, b0, b1, t, rfl, ht⟩)
    · rcases rest with _ | ⟨b1, _ | ⟨b2, t⟩⟩
      · exact Option.noConfusion h
      · exact Option.noConfusion h
      · dsimp only at h
        split_ifs at h with ht
        simp only [Option.some.injEq, Prod.mk.injEq] at h
        rcases Bool.and_eq_true_iff.mp ht with ⟨hv, ht2⟩
        exact Or.inr (Or.inr (Or.inl ⟨h.2.symm, b0, b1, b2, t, rfl, validE_trail hv, ht2⟩))
    · rcases rest with _ | ⟨b1, _ | ⟨b2, _ | ⟨b3, t⟩⟩⟩
      · exact Option.noConfusion h
      · exact Option.noConfusion h
      · exact Option.noConfusion h
      · dsimp only at h
        split_ifs at h with ht
        simp only [Option.some.injEq, Prod.mk.injEq] at h
        rcases Bool.and_eq_true_iff.mp ht with ⟨hv', ht3⟩
        rcases Bool.and_eq_true_iff.mp hv' with ⟨hv, ht2⟩
        exact Or.inr (Or.inr (Or.inr ⟨h.2.symm, b0, b1, b2, b3, t, rfl,
          validF_trail hv, ht2, ht3⟩))

/-- A successful decode consumes at least one byte. -/
theorem decodeNext_w_pos {l : List Nat} {cp w : Nat} (h : decodeNext l = some (cp, w)) :
    1 ≤ w := by
  rcases decodeNext_inv h with ⟨hw, _⟩ | ⟨hw, _⟩ | ⟨hw, _⟩ | ⟨hw, _⟩ <;> omega

/-- A successful decode does not consume more bytes than the list holds. -/
theorem decodeNext_w_le {l : List Nat} {cp w : Nat} (h : decodeNext l = some (cp, w)) :
    w ≤ l.length := by
  rcases decodeNext_inv h with ⟨hw, _, _, hl⟩ | ⟨hw, _, _, _, hl, _⟩ |
    ⟨hw, _, _, _, _, hl, _⟩ | ⟨hw, _, _, _, _, _, hl, _⟩ <;>
    subst hw <;> subst hl <;> simp

/-- A trail byte cannot head a decode. -/
theorem decodeNext_trail {b : Nat} (h : isTrail b = true) (t : List Nat) :
    decodeNext (b :: t) = none := by
  unfold isTrail at h
  rcases Bool.and_eq_true_iff.mp h with ⟨ha, hb⟩
  simp only [decide_eq_true_eq] at ha hb
  unfold decodeNext
  have h1 : ¬ b < 0x80 := by omega
  have h2 : b < 0xC2 := by omega
  simp [h1, h2]

/-- Inversion for the full forward decode. -/
theorem decodeListGo_inv {fuel : Nat} {rem : List Nat} {L : List (Nat × Nat)}
    (h : decodeListGo fuel rem = some L) :
    (rem = [] ∧ L = []) ∨
    (∃ fuel' cp w L', fuel = fuel' + 1 ∧ decodeNext rem = some (cp, w) ∧
      L = (cp, w) :: L' ∧ decodeListGo fuel' (rem.drop w) = some L') := by
  cases rem with
  | nil =>
    left
    refine ⟨rfl, ?_⟩
    simp [decodeListGo] at h
    exact h
  | cons b t =>
    right
    rw [decodeListGo.eq_def] at h
    dsimp only at h
    cases fuel with
    | zero =>
      cases hd : decodeNext (b :: t) with
      | none => rw [hd] at h; exact Option.noConfusion h
      | some p => rw [hd] at h; exact Option.noConfusion h
    | succ f =>
      cases hd : decodeNext (b :: t) with
      | none => rw [hd] at h; exact Option.noConfusion h
      | some p =>
        rcases p with ⟨cp, w⟩
        rw [hd] at h
        dsimp only at h
        rcases Option.map_eq_some'.mp h with ⟨L', hL', hcons⟩
        exact ⟨f, cp, w, L', rfl, rfl, hcons.symm, hL'⟩

/-- A successful full decode accounts for every byte. -/
theorem decodeListGo_wsum {fuel : Nat} {rem : List Nat} {L : List (Nat × Nat)}
    (h : decodeListGo fuel rem = some L) : wsum L = rem.length := by
  induction fuel generalizing rem L with
  | zero =>
    rcases decodeListGo_inv h with ⟨hr, hL⟩ | ⟨f', cp, w, L', hf, _, _, _⟩
    · subst hr; subst hL; rfl
    · exact absurd hf (by omega)
  | succ f ih =>
    rcases decodeListGo_inv h with ⟨hr, hL⟩ | ⟨f', cp, w, L', hf, hnext, hL, hrec⟩
    · subst hr; subst hL; rfl
    · have hf' : f' = f := by omega
      subst hf'
      subst hL
      have hw := decodeNext_w_le hnext
      have := ih hrec
      rw [wsum_cons]
      simp only [List.length_drop] at this
      omega

/-- Every width in a successful full decode is at least 1. -/
theorem decodeListGo_w1 {fuel : Nat} {rem : List Nat} {L : List (Nat × Nat)}
    (h : decodeListGo fuel rem = some L) : ∀ p ∈ L, 1 ≤ p.2 := by
  induction fuel generalizing rem L with
  | zero =>
    rcases decodeListGo_inv h with ⟨hr, hL⟩ | ⟨f', cp, w, L', hf, _, _, _⟩
    · subst hL; intro p hp; exact absurd hp (List.not_mem_nil p)
    · exact absurd hf (by omega)
  | succ f ih =>
    rcases decodeListGo_inv h with ⟨hr, hL⟩ | ⟨f', cp, w, L', hf, hnext, hL, hrec⟩
    · subst hL; intro p hp; exact absurd hp (List.not_mem_nil p)
    · have hf' : f' = f := by omega
      subst hf'
      subst hL
      intro p hp
      rcases List.mem_cons.mp hp with hp | hp
      · subst hp; exact decodeNext_w_pos hnext
      · exact ih hrec p hp

/-- At the byte boundary of the `k`-th decoded code point, `U8_NEXT`
re-decodes exactly that code point. -/
theorem decodeListGo_get {fuel : Nat} {rem : List Nat} {L : List (Nat × Nat)}
    (h : decodeListGo fuel rem = some L) :
    ∀ k, (hk : k < L.length) → decodeNext (rem.drop (wsum (L.take k))) = some (L.get ⟨k, hk⟩) := by
  induction fuel generalizing rem L with
  | zero =>
    rcases decodeListGo_inv h with ⟨hr, hL⟩ | ⟨f', cp, w, L', hf, _, _, _⟩
    · subst hL; intro k hk; exact absurd hk (by simp)
    · exact absurd hf (by omega)
  | succ f ih =>
    rcases decodeListGo_inv h with ⟨hr, hL⟩ | ⟨f', cp, w, L', hf, hnext, hL, hrec⟩
    · subst hL; intro k hk; exact absurd hk (by simp)
    · have hf' : f' = f := by omega
      subst hf'
      subst hL
      intro k hk
      cases k with
      | zero =>
        simp only [List.take_zero, wsum_nil, List.drop_zero]
        exact hnext
      | succ k' =>
        have hk' : k' < L'.length := by simpa using hk
        have H := ih hrec k' hk'
        rw [List.drop_drop] at H
        simp only [List.take_succ_cons, wsum_cons, List.get_cons_succ]
        exact H

/-- A byte position that is not a code-point boundary cannot be decoded:
it holds a trail byte (or is past a truncated sequence). -/
theorem decodeListGo_nonboundary {fuel : Nat} {rem : List Nat} {L : List (Nat × Nat)}
    (h : decodeListGo fuel rem = some L) :
    ∀ q, q < rem.length → (∀ m, m ≤ L.length → wsum (L.take m) ≠ q) →
      decodeNext (rem.drop q) = none := by
  induction fuel generalizing rem L with
  | zero =>
    rcases decodeListGo_inv h with ⟨hr, hL⟩ | ⟨f', cp, w, L', hf, _, _, _⟩
    · subst hr; intro q hq; exact absurd hq (by simp)
    · exact absurd hf (by omega)
  | succ f ih =>
    rcases decodeListGo_inv h with ⟨hr, hL⟩ | ⟨f', cp, w, L', hf, hnext, hL, hrec⟩
    · subst hr; intro q hq; exact absurd hq (by simp)
    · have hf' : f' = f := by omega
      subst hf'
      subst hL
      intro q hq hnb
      by_cases hq0 : q = 0
      · exact absurd (by simp [hq0, wsum]) (hnb 0 (Nat.zero_le _))
      by_cases hqw : q < w
      · -- inside the first code point: the byte at q is a trail byte
        rcases decodeNext_inv hnext with ⟨hw, _⟩ | ⟨hw, b0, b1, t, hl, ht1⟩ |
            ⟨hw, b0, b1, b2, t, hl, ht1, ht2⟩ | ⟨hw, b0, b1, b2, b3, t, hl, ht1, ht2, ht3⟩
        · omega
        · subst hw; subst hl
          have hq1 : q = 1 := by omega
          subst hq1
          exact decodeNext_trail ht1 _
        · subst hw; subst hl
          rcases (by omega : q = 1 ∨ q = 2) with hq' | hq' <;> subst hq'
          · exact decodeNext_trail ht1 _
          · exact decodeNext_trail ht2 _
        · subst hw; subst hl
          rcases (by omega : q = 1 ∨ q = 2 ∨ q = 3) with hq' | hq' | hq' <;> subst hq'
          · exact decodeNext_trail ht1 _
          · exact decodeNext_trail ht2 _
          · exact decodeNext_trail ht3 _
      · -- beyond the first code point: recurse
        push_neg at hqw
        have hq' : q - w < (rem.drop w).length := by
          simp only [List.length_drop]
          have := decodeNext_w_le hnext
          omega
        have hnb' : ∀ m, m ≤ L'.length → wsum (L'.take m) ≠ q - w := by
          intro m hm
          have := hnb (m + 1) (by simpa using hm)
          simp only [List.take_succ_cons, wsum_cons] at this
          omega
        have H := ih hrec (q - w) hq' hnb'
        rw [List.drop_drop] at H
        have hqw' : w + (q - w) = q := by omega
        rw [hqw'] at H
        exact H

/-- `wsum ∘ take` is strictly monotone when all widths are positive. -/
theorem wsum_take_lt {L : List (Nat × Nat)} (h1 : ∀ p ∈ L, 1 ≤ p.2) :
    ∀ m m', m < m' → m' ≤ L.length → wsum (L.take m) < wsum (L.take m') := by
  induction L with
  | nil => intro m m' hm hm'; simp at hm'; omega
  | cons p L' ih =>
    intro m m' hm hm'
    cases m' with
    | zero => omega
    | succ n' =>
      cases m with
      | zero =>
        simp only [List.take_zero, wsum_nil, List.take_succ_cons, wsum_cons]
        have := h1 p (List.mem_cons_self p L')
        omega
      | succ n =>
        simp only [List.take_succ_cons, wsum_cons]
        have := ih (fun q hq => h1 q (List.mem_cons_of_mem p hq)) n n' (by omega) (by simpa using hm')
        omega

/-- `wsum ∘ take` never exceeds the total width. -/
theorem wsum_take_le (L : List (Nat × Nat)) (m : Nat) : wsum (L.take m) ≤ wsum L := by
  conv_rhs => rw [← List.take_append_drop m L]
  rw [wsum_append]
  omega

/-- A successful decode consumes at most four bytes. -/
theorem decodeNext_w_le4 {l : List Nat} {cp w : Nat} (h : decodeNext l = some (cp, w)) :
    w ≤ 4 := by
  rcases decodeNext_inv h with ⟨hw, _⟩ | ⟨hw, _⟩ | ⟨hw, _⟩ | ⟨hw, _⟩ <;> omega

theorem wsum_take_succ {L : List (Nat × Nat)} : ∀ k, (hk : k < L.length) →
    wsum (L.take (k + 1)) = wsum (L.take k) + (L.get ⟨k, hk⟩).2 := by
  induction L with
  | nil => intro k hk; simp at hk
  | cons p L' ih =>
    intro k hk
    cases k with
    | zero => simp [wsum]
    | succ k' =>
      simp only [List.take_succ_cons, wsum_cons, List.get_cons_succ]
      rw [ih k' (by simpa using hk)]
      omega

/-- One probe of `U8_PREV`: try to decode a whole code point spanning
exactly the bytes `[q, pos)`. -/
def tryPrev (s : List Nat) (pos q : Nat) : Option Nat :=
  match decodeNext (s.drop q) with
  | some (cp, w) => if q + w = pos then some cp else none
  | none => none

/-- `U8_PREV`: decode the code point ending right before byte position
`pos`, stepping back over at most three trail bytes; returns the code
point and its start position, or `none` on a malformed sequence. -/
def decodePrev (s : List Nat) (pos : Nat) : Option (Nat × Nat) :=
  if pos = 0 then none
  else match tryPrev s pos (pos - 1) with
    | some cp => some (cp, pos - 1)
    | none =>
      match tryPrev s pos (pos - 2) with
      | some cp => some (cp, pos - 2)
      | none =>
        match tryPrev s pos (pos - 3) with
        | some cp => some (cp, pos - 3)
        | none =>
          match tryPrev s pos (pos - 4) with
          | some cp => some (cp, pos - 4)
          | none => none

/-- A backward decode steps strictly backward. -/
theorem decodePrev_lt {s : List Nat} {pos cp st : Nat}
    (h : decodePrev s pos = some (cp, st)) : st < pos := by
  unfold decodePrev at h
  split_ifs at h with h0
  rcases h1 : tryPrev s pos (pos - 1) with _ | c1 <;> rw [h1] at h
  · dsimp only at h
    rcases h2 : tryPrev s pos (pos - 2) with _ | c2 <;> rw [h2] at h
    · dsimp only at h
      rcases h3 : tryPrev s pos (pos - 3) with _ | c3 <;> rw [h3] at h
      · dsimp only at h
        rcases h4 : tryPrev s pos (pos - 4) with _ | c4 <;> rw [h4] at h
        · exact Option.noConfusion h
        · simp only [Option.some.injEq, Prod.mk.injEq] at h
          omega
      · simp only [Option.some.injEq, Prod.mk.injEq] at h
        omega
    · simp only [Option.some.injEq, Prod.mk.injEq] at h
      omega
  · simp only [Option.some.injEq, Prod.mk.injEq] at h
    omega

/-- A probe at a position that is not a code-point boundary fails. -/
theorem tryPrev_none {s : List Nat} {L : List (Nat × Nat)} (h : decodeList s = some L)
    {q : Nat} (hql : q < s.length)
    (hnb : ∀ m, m ≤ L.length → wsum (L.take m) ≠ q) (pos : Nat) :
    tryPrev s pos q = none := by
  have h' : decodeListGo s.length s = some L := h
  unfold tryPrev
  rw [decodeListGo_nonboundary h' q hql hnb]

/-- Positions strictly inside a code point are not boundaries. -/
theorem nonboundary_between {L : List (Nat × Nat)} (_hw : ∀ p ∈ L, 1 ≤ p.2) {k q : Nat}
    (_hkk : k + 1 ≤ L.length) (hq1 : wsum (L.take k) < q) (hq2 : q < wsum (L.take (k + 1))) :
    ∀ m, m ≤ L.length → wsum (L.take m) ≠ q := by
  intro m hm
  by_cases hmk : m ≤ k
  · have ht : (L.take k).take m = L.take m := by
      rw [List.take_take, Nat.min_eq_left hmk]
    have hle : wsum (L.take m) ≤ wsum (L.take k) := by
      rw [← ht]; exact wsum_take_le _ _
    omega
  · have hmk' : k + 1 ≤ m := by omega
    have ht : (L.take m).take (k + 1) = L.take (k + 1) := by
      rw [List.take_take, Nat.min_eq_left hmk']
    have hle : wsum (L.take (k + 1)) ≤ wsum (L.take m) := by
      rw [← ht]; exact wsum_take_le _ _
    omega

/-- `U8_PREV` at the byte boundary after the `k`-th decoded code point
decodes exactly that code point and retreats to its start. -/
theorem decodePrev_boundary {s : List Nat} {L : List (Nat × Nat)}
    (h : decodeList s = some L) :
    ∀ k, (hk : k < L.length) →
      decodePrev s (wsum (L.take (k + 1))) =
        some ((L.get ⟨k, hk⟩).1, wsum (L.take k)) := by
  intro k hk
  have h' : decodeListGo s.length s = some L := h
  have hw1 := decodeListGo_w1 h'
  rcases hg : L.get ⟨k, hk⟩ with ⟨cp, w⟩
  have hget : decodeNext (s.drop (wsum (L.take k))) = some (cp, w) := by
    rw [decodeListGo_get h' k hk, hg]
  have hsucc : wsum (L.take (k + 1)) = wsum (L.take k) + w := by
    rw [wsum_take_succ k hk, hg]
  have hwpos : 1 ≤ w := by
    have := hw1 (L.get ⟨k, hk⟩) (List.get_mem _ _ _)
    rw [hg] at this
    exact this
  have hw4 : w ≤ 4 := decodeNext_w_le4 hget
  have hn : wsum L = s.length := decodeListGo_wsum h'
  have hposle : wsum (L.take (k + 1)) ≤ s.length := by
    rw [← hn]; exact wsum_take_le _ _
  set p := wsum (L.take k) with hp
  set pos := wsum (L.take (k + 1)) with hpos
  have hsucc0 : tryPrev s pos p = some cp := by
    unfold tryPrev
    rw [hget]
    simp [hsucc]
  have hint : ∀ q, p < q → q < pos → tryPrev s pos q = none := by
    intro q h1 h2
    exact tryPrev_none h (by omega) (nonboundary_between hw1 (by omega) h1 h2) pos
  have h0 : ¬ pos = 0 := by omega
  rcases (by omega : w = 1 ∨ w = 2 ∨ w = 3 ∨ w = 4) with hw | hw | hw | hw
  · have e1 : pos - 1 = p := by omega
    unfold decodePrev
    rw [if_neg h0, e1, hsucc0]
  · have e1 : tryPrev s pos (pos - 1) = none := hint _ (by omega) (by omega)
    have e2 : pos - 2 = p := by omega
    unfold decodePrev
    rw [if_neg h0, e1, e2, hsucc0]
  · have e1 : tryPrev s pos (pos - 1) = none := hint _ (by omega) (by omega)
    have e2 : tryPrev s pos (pos - 2) = none := hint _ (by omega) (by omega)
    have e3 : pos - 3 = p := by omega
    unfold decodePrev
    rw [if_neg h0, e1, e2, e3, hsucc0]
  · have e1 : tryPrev s pos (pos - 1) = none := hint _ (by omega) (by omega)
    have e2 : tryPrev s pos (pos - 2) = none := hint _ (by omega) (by omega)
    have e3 : tryPrev s pos (pos - 3) = none := hint _ (by omega) (by omega)
    have e4 : pos - 4 = p := by omega
    unfold decodePrev
    rw [if_neg h0, e1, e2, e3, e4, hsucc0]

/-! ## The scanning loops of the engine (byte level, fueled) -/

/-- Loop of `stri__locate_firstlast_charclass` (forward scan; for
`first = true` it breaks at the first match, for `first = false` it scans
the whole string overwriting the recorded 1-based code-point index `k`,
since, as the source notes, a proper index cannot be obtained by a
backward scan). -/
def locFLGo (first : Bool) (cls : Nat → Bool) :
    Nat → List Nat → Nat → Option Nat → Except StriErr (Option Nat)
  | _, [], _, acc => .ok acc
  | fuel, rem, k, acc =>
    match fuel, decodeNext rem with
    | _, none => .error .invalidUTF8
    | 0, some _ => .error .invalidUTF8
    | fuel + 1, some (cp, w) =>
      if cls cp then
        if first then .ok (some (k + 1))
        else locFLGo first cls fuel (rem.drop w) (k + 1) (some (k + 1))
      else locFLGo first cls fuel (rem.drop w) (k + 1) acc

/-- One row of `stri__locate_firstlast_charclass`: `(start, end)` pair,
both `NA` when the row is missing or there is no match, both the same
code-point index otherwise (`ret_tab[i+vectorize_length] = ret_tab[i]`). -/
def locateFLRow (first : Bool) (str : Option (List Nat)) (pat : Option (Nat → Bool)) :
    Except StriErr (Option Nat × Option Nat) :=
  match str, pat with
  | some s, some p => (locFLGo first p s.length s 0 none).map (fun r => (r, r))
  | _, _ => .ok (none, none)

/-- Loop of `stri_locate_all_charclass`: collect the 1-based code-point
indices of all matches (the `occurrences` deque). -/
def collectIdxGo (cls : Nat → Bool) : Nat → List Nat → Nat → Except StriErr (List Nat)
  | _, [], _ => .ok []
  | fuel, rem, k =>
    match fuel, decodeNext rem with
    | _, none => .error .invalidUTF8
    | 0, some _ => .error .invalidUTF8
    | fuel + 1, some (cp, w) =>
      (collectIdxGo cls fuel (rem.drop w) (k + 1)).map
        (fun l => if cls cp then (k + 1) :: l else l)

def collectIndices (cls : Nat → Bool) (s : List Nat) : Except StriErr (List Nat) :=
  collectIdxGo cls s.length s 0

/-- The run-merging pass of `stri_locate_all_charclass` (`occurrences2`):
consecutive indices are folded into `(first, last)` runs.  The
accumulated runs are kept newest-first and reversed at the end. -/
def mergeIdxGo : List Nat → (Nat × Nat) → List (Nat × Nat) → List (Nat × Nat)
  | [], cur, racc => (cur :: racc).reverse
  | o :: os, cur, racc =>
    if cur.2 + 1 = o then mergeIdxGo os (cur.1, o) racc
    else mergeIdxGo os (o, o) (cur :: racc)

def mergeIdx : List Nat → List (Nat × Nat)
  | [] => []
  | o :: os => mergeIdxGo os (o, o) []

/-- Per-row result assembly of `stri_locate_all_charclass`: the
`notfound` sentinel row for zero occurrences, merged runs when
`merge` is set and there is more than one occurrence, degenerate
`(k, k)` rows otherwise. -/
def locAllRes (m : Bool) (occ : List Nat) : List (Option Nat × Option Nat) :=
  if occ.length = 0 then [(none, none)]
  else if m ∧ 1 < occ.length then (mergeIdx occ).map (fun p => (some p.1, some p.2))
  else occ.map (fun k => (some k, some k))

/-- One row of `stri_locate_all_charclass`; the missing row gets the very
same `notfound` sentinel matrix as a row with zero matches. -/
def locateAllRow (str : Option (List Nat)) (pat : Option (Nat → Bool)) (mrg : Option Bool) :
    Except StriErr (List (Option Nat × Option Nat)) :=
  match str, pat, mrg with
  | some s, some p, some m => (collectIndices p s).map (locAllRes m)
  | _, _, _ => .ok [(none, none)]

/-- Span accumulation step of `stri_replace_all_charclass`: on a match of
width `j - jlast`, either extend the last span (merge mode, byte-adjacent)
or push a new span.  Spans are accumulated newest-first. -/
def spanPush (mrg : Bool) (acc : List (Nat × Nat)) (jlast j : Nat) : List (Nat × Nat) :=
  match acc with
  | (a, b) :: tl => if mrg ∧ b = jlast then (a, j) :: tl else (jlast, j) :: (a, b) :: tl
  | [] => [(jlast, j)]

/-- Loop of `stri_replace_all_charclass`: collect byte spans of matches
(`occurrences`) together with `sumbytes`. -/
def collectSpansGo (cls : Nat → Bool) (mrg : Bool) :
    Nat → List Nat → Nat → List (Nat × Nat) → Nat → Except StriErr (List (Nat × Nat) × Nat)
  | _, [], _, acc, sb => .ok (acc.reverse, sb)
  | fuel, rem, jlast, acc, sb =>
    match fuel, decodeNext rem with
    | _, none => .error .invalidUTF8
    | 0, some _ => .error .invalidUTF8
    | fuel + 1, some (cp, w) =>
      if cls cp then
        collectSpansGo cls mrg fuel (rem.drop w) (jlast + w)
          (spanPush mrg acc jlast (jlast + w)) (sb + ((jlast + w) - jlast))
      else collectSpansGo cls mrg fuel (rem.drop w) (jlast + w) acc sb

def collectSpans (cls : Nat → Bool) (mrg : Bool) (s : List Nat) :
    Except StriErr (List (Nat × Nat) × Nat) :=
  collectSpansGo cls mrg s.length s 0 [] 0

/-- The copy pass of the Replace Engine: for each span, copy the untouched
gap before it, then the replacement bytes; after the last span, copy the
trailing remainder. -/
def copyPass (s repl : List Nat) : List (Nat × Nat) → Nat → List Nat
  | [], jlast => s.drop jlast
  | (a, b) :: rest, jlast =>
    (s.drop jlast).take (a - jlast) ++ repl ++ copyPass s repl rest b

/-- One row of `stri_replace_all_charclass`.  Zero spans return the
original string itself (`str_cont.toR(i)`); otherwise the output is the
copy pass over the collected spans. -/
def replaceAllRow (str : Option (List Nat)) (pat : Option (Nat → Bool))
    (repl : Option (List Nat)) (mrg : Option Bool) : Except StriErr (Option (List Nat)) :=
  match str, repl, pat, mrg with
  | some s, some r, some p, some m =>
    match collectSpans p m s with
    | .error e => .error e
    | .ok (sp, _) =>
      if sp.isEmpty then .ok (some s)
      else .ok (some (copyPass s r sp 0))
  | _, _, _, _ => .ok none

/-- Forward search loop of `stri__replace_firstlast_charclass`
(`first = true`): returns the final `(jlast, j)`; they are equal iff
there was no match. -/
def findFirstGo (cls : Nat → Bool) : Nat → List Nat → Nat → Except StriErr (Nat × Nat)
  | _, [], jlast => .ok (jlast, jlast)
  | fuel, rem, jlast =>
    match fuel, decodeNext rem with
    | _, none => .error .invalidUTF8
    | 0, some _ => .error .invalidUTF8
    | fuel + 1, some (cp, w) =>
      if cls cp then .ok (jlast, jlast + w)
      else findFirstGo cls fuel (rem.drop w) (jlast + w)

def findFirst (cls : Nat → Bool) (s : List Nat) : Except StriErr (Nat × Nat) :=
  findFirstGo cls s.length s 0

/-- Backward search loop of `stri__replace_firstlast_charclass`
(`first = false`): `U8_PREV` from the end, breaking at the first match
found; at the loop head the source's `j` always equals `jlast`, so only
the current position is carried. -/
def findLastGo (cls : Nat → Bool) (s : List Nat) : Nat → Nat → Except StriErr (Nat × Nat)
  | fuel, pos =>
    if pos = 0 then .ok (0, 0)
    else
      match fuel, decodePrev s pos with
      | _, none => .error .invalidUTF8
      | 0, some _ => .error .invalidUTF8
      | fuel + 1, some (cp, st) =>
        if cls cp then .ok (st, pos)
        else findLastGo cls s fuel st

def findLast (cls : Nat → Bool) (s : List Nat) : Except StriErr (Nat × Nat) :=
  findLastGo cls s s.length s.length

/-- One row of `stri__replace_firstlast_charclass`.  `j == jlast` (no
match) returns the original string itself; otherwise bytes `[0, jlast)`,
the replacement, and bytes `[j, n)` are copied into a buffer of exactly
`n + replacement_length - (j - jlast)` bytes. -/
def replaceFLRow (first : Bool) (str : Option (List Nat)) (pat : Option (Nat → Bool))
    (repl : Option (List Nat)) : Except StriErr (Option (List Nat)) :=
  match str, repl, pat with
  | some s, some r, some p =>
    match (if first then findFirst p s else findLast p s) with
    | .error e => .error e
    | .ok (jlast, j) =>
      if j = jlast then .ok (some s)
      else .ok (some (s.take jlast ++ r ++ s.drop j))
  | _, _, _ => .ok none

/-! ## Vectorized drivers -/

/-- The per-call row loop: process rows in order; a thrown
`StriException` aborts the whole call with no partial output
(`STRI__ERROR_HANDLER_END`). -/
def mapRows (f : α → Except StriErr β) : List α → Except StriErr (List β)
  | [] => .ok []
  | a :: t =>
    match f a with
    | .error e => .error e
    | .ok b => (mapRows f t).map (b :: ·)

/-- A row of inputs to the locate first/last operations. -/
structure LocateArgs where
  str : Option (List Nat)
  pat : Option (Nat → Bool)

/-- A row of inputs to `stri_locate_all_charclass`. -/
structure LocateAllArgs where
  str : Option (List Nat)
  pat : Option (Nat → Bool)
  mrg : Option Bool

/-- A row of inputs to the replace first/last operations. -/
structure ReplaceArgs where
  str : Option (List Nat)
  pat : Option (Nat → Bool)
  repl : Option (List Nat)

/-- A row of inputs to `stri_replace_all_charclass`. -/
structure ReplaceAllArgs where
  str : Option (List Nat)
  pat : Option (Nat → Bool)
  repl : Option (List Nat)
  mrg : Option Bool

def stri__locate_firstlast_charclass (first : Bool) (rows : List LocateArgs) :
    Except StriErr (List (Option Nat × Option Nat)) :=
  mapRows (fun a => locateFLRow first a.str a.pat) rows

def stri_locate_first_charclass (rows : List LocateArgs) :
    Except StriErr (List (Option Nat × Option Nat)) :=
  stri__locate_firstlast_charclass true rows

def stri_locate_last_charclass (rows : List LocateArgs) :
    Except StriErr (List (Option Nat × Option Nat)) :=
  stri__locate_firstlast_charclass false rows

def stri_locate_all_charclass (rows : List LocateAllArgs) :
    Except StriErr (List (List (Option Nat × Option Nat))) :=
  mapRows (fun a => locateAllRow a.str a.pat a.mrg) rows

def stri_replace_all_charclass (rows : List ReplaceAllArgs) :
    Except StriErr (List (Option (List Nat))) :=
  mapRows (fun a => replaceAllRow a.str a.pat a.repl a.mrg) rows

def stri__replace_firstlast_charclass (first : Bool) (rows : List ReplaceArgs) :
    Except StriErr (List (Option (List Nat))) :=
  mapRows (fun a => replaceFLRow first a.str a.pat a.repl) rows

def stri_replace_first_charclass (rows : List ReplaceArgs) :
    Except StriErr (List (Option (List Nat))) :=
  stri__replace_firstlast_charclass true rows

def stri_replace_last_charclass (rows : List ReplaceArgs) :
    Except StriErr (List (Option (List Nat))) :=
  stri__replace_firstlast_charclass false rows

/-- Backward-scan reference definition of the "last" match collector,
following the specification: scan backward from the end of the string and
return on the first match found (its byte span); reaching the start of
the string without a match is the explicit "no match" outcome. -/
def lastScanRefGo (cls : Nat → Bool) (s : List Nat) :
    Nat → Nat → Except StriErr (Option (Nat × Nat))
  | fuel, pos =>
    if pos = 0 then .ok none
    else
      match fuel, decodePrev s pos with
      | _, none => .error .invalidUTF8
      | 0, some _ => .error .invalidUTF8
      | fuel + 1, some (cp, st) =>
        if cls cp then .ok (some (st, pos))
        else lastScanRefGo cls s fuel st

def lastCollectorBwdRef (cls : Nat → Bool) (s : List Nat) :
    Except StriErr (Option (Nat × Nat)) :=
  lastScanRefGo cls s s.length s.length

deriving instance DecidableEq for Except

/-! ## List-level folds mirroring each loop over the decoded sequence -/

/-- `stri__locate_firstlast_charclass` inner loop over decoded
code points. -/
def flFold (first : Bool) (cls : Nat → Bool) : List (Nat × Nat) → Nat → Option Nat → Option Nat
  | [], _, acc => acc
  | (cp, _) :: t, k, acc =>
    if cls cp then
      if first then some (k + 1)
      else flFold first cls t (k + 1) (some (k + 1))
    else flFold first cls t (k + 1) acc

/-- `occurrences` of `stri_locate_all_charclass` over decoded code
points: 1-based indices of matches. -/
def occFold (cls : Nat → Bool) : List (Nat × Nat) → Nat → List Nat
  | [], _ => []
  | (cp, _) :: t, k =>
    if cls cp then (k + 1) :: occFold cls t (k + 1) else occFold cls t (k + 1)

/-- `occurrences`/`sumbytes` of `stri_replace_all_charclass` over decoded
code points. -/
def spanFold (cls : Nat → Bool) (mrg : Bool) :
    List (Nat × Nat) → Nat → List (Nat × Nat) → Nat → List (Nat × Nat) × Nat
  | [], _, acc, sb => (acc.reverse, sb)
  | (cp, w) :: t, jlast, acc, sb =>
    if cls cp then
      spanFold cls mrg t (jlast + w) (spanPush mrg acc jlast (jlast + w))
        (sb + ((jlast + w) - jlast))
    else spanFold cls mrg t (jlast + w) acc sb

/-- Forward first-match search over decoded code points. -/
def ffFold (cls : Nat → Bool) : List (Nat × Nat) → Nat → Nat × Nat
  | [], jlast => (jlast, jlast)
  | (cp, w) :: t, jlast => if cls cp then (jlast, jlast + w) else ffFold cls t (jlast + w)

/-- Backward last-match search over the reversed decoded sequence,
carrying the byte position of the end of the not-yet-visited prefix. -/
def lastSpanRev (cls : Nat → Bool) : List (Nat × Nat) → Nat → Nat × Nat
  | [], _ => (0, 0)
  | (cp, w) :: t, pos => if cls cp then (pos - w, pos) else lastSpanRev cls t (pos - w)

/-! ## Step equations for the fueled loops -/

theorem decodeListGo_step (fuel : Nat) (b : Nat) (t : List Nat) :
    decodeListGo fuel (b :: t) =
      match fuel, decodeNext (b :: t) with
      | _, none => none
      | 0, some _ => none
      | fuel + 1, some (cp, w) => (decodeListGo fuel ((b :: t).drop w)).map ((cp, w) :: ·) := by
  rw [decodeListGo.eq_def]

theorem locFLGo_step (first : Bool) (cls : Nat → Bool) (fuel : Nat) (b : Nat) (t : List Nat)
    (k : Nat) (acc : Option Nat) :
    locFLGo first cls fuel (b :: t) k acc =
      match fuel, decodeNext (b :: t) with
      | _, none => .error .invalidUTF8
      | 0, some _ => .error .invalidUTF8
      | fuel + 1, some (cp, w) =>
        if cls cp then
          if first then .ok (some (k + 1))
          else locFLGo first cls fuel ((b :: t).drop w) (k + 1) (some (k + 1))
        else locFLGo first cls fuel ((b :: t).drop w) (k + 1) acc := by
  rw [locFLGo.eq_def]

theorem collectIdxGo_step (cls : Nat → Bool) (fuel : Nat) (b : Nat) (t : List Nat) (k : Nat) :
    collectIdxGo cls fuel (b :: t) k =
      match fuel, decodeNext (b :: t) with
      | _, none => .error .invalidUTF8
      | 0, some _ => .error .invalidUTF8
      | fuel + 1, some (cp, w) =>
        (collectIdxGo cls fuel ((b :: t).drop w) (k + 1)).map
          (fun l => if cls cp then (k + 1) :: l else l) := by
  rw [collectIdxGo.eq_def]

theorem collectSpansGo_step (cls : Nat → Bool) (mrg : Bool) (fuel : Nat) (b : Nat)
    (t : List Nat) (jlast : Nat) (acc : List (Nat × Nat)) (sb : Nat) :
    collectSpansGo cls mrg fuel (b :: t) jlast acc sb =
      match fuel, decodeNext (b :: t) with
      | _, none => .error .invalidUTF8
      | 0, some _ => .error .invalidUTF8
      | fuel + 1, some (cp, w) =>
        if cls cp then
          collectSpansGo cls mrg fuel ((b :: t).drop w) (jlast + w)
            (spanPush mrg acc jlast (jlast + w)) (sb + ((jlast + w) - jlast))
        else collectSpansGo cls mrg fuel ((b :: t).drop w) (jlast + w) acc sb := by
  rw [collectSpansGo.eq_def]

theorem findFirstGo_step (cls : Nat → Bool) (fuel : Nat) (b : Nat) (t : List Nat) (jlast : Nat) :
    findFirstGo cls fuel (b :: t) jlast =
      match fuel, decodeNext (b :: t) with
      | _, none => .error .invalidUTF8
      | 0, some _ => .error .invalidUTF8
      | fuel + 1, some (cp, w) =>
        if cls cp then .ok (jlast, jlast + w)
        else findFirstGo cls fuel ((b :: t).drop w) (jlast + w) := by
  rw [findFirstGo.eq_def]

theorem findLastGo_step (cls : Nat → Bool) (s : List Nat) (fuel : Nat) (pos : Nat) :
    findLastGo cls s fuel pos =
      if pos = 0 then .ok (0, 0)
      else
        match fuel, decodePrev s pos with
        | _, none => .error .invalidUTF8
        | 0, some _ => .error .invalidUTF8
        | fuel + 1, some (cp, st) =>
          if cls cp then .ok (st, pos)
          else findLastGo cls s fuel st := by
  rw [findLastGo.eq_def]

theorem lastScanRefGo_step (cls : Nat → Bool) (s : List Nat) (fuel : Nat) (pos : Nat) :
    lastScanRefGo cls s fuel pos =
      if pos = 0 then .ok none
      else
        match fuel, decodePrev s pos with
        | _, none => .error .invalidUTF8
        | 0, some _ => .error .invalidUTF8
        | fuel + 1, some (cp, st) =>
          if cls cp then .ok (some (st, pos))
          else lastScanRefGo cls s fuel st := by
  rw [lastScanRefGo.eq_def]

/-- Lift a function on decoded sequences to the `Except` result of a
scan: decoding failure is the engine's terminal error. -/
def exceptOfDecode (f : List (Nat × Nat) → α) : Option (List (Nat × Nat)) → Except StriErr α
  | none => .error .invalidUTF8
  | some L => .ok (f L)

theorem exceptOfDecode_ok {f : List (Nat × Nat) → α} {o : Option (List (Nat × Nat))}
    {L : List (Nat × Nat)} (h : o = some L) : exceptOfDecode f o = .ok (f L) := by
  subst h; rfl

/-- The full-scan locate-last loop equals the fold over the decoded
sequence (and fails exactly when decoding fails). -/
theorem locFLGo_decode (cls : Nat → Bool) : ∀ fuel rem k acc,
    locFLGo false cls fuel rem k acc =
      exceptOfDecode (fun L => flFold false cls L k acc) (decodeListGo fuel rem) := by
  intro fuel
  induction fuel with
  | zero =>
    intro rem k acc
    cases rem with
    | nil => rfl
    | cons b t =>
      rw [locFLGo_step, decodeListGo_step]
      cases hd : decodeNext (b :: t) with
      | none => rfl
      | some p => rcases p with ⟨cp, w⟩; rfl
  | succ f ih =>
    intro rem k acc
    cases rem with
    | nil => rfl
    | cons b t =>
      rw [locFLGo_step, decodeListGo_step]
      cases hd : decodeNext (b :: t) with
      | none => rfl
      | some p =>
        rcases p with ⟨cp, w⟩
        dsimp only
        simp only [ih]
        cases hrec : decodeListGo f ((b :: t).drop w) with
        | none => cases hc : cls cp <;> simp [hc, exceptOfDecode]
        | some L' => cases hc : cls cp <;> simp [hc, exceptOfDecode, flFold]

/-- Both locate-first/last loops equal the fold when the input is
well-formed. -/
theorem locFLGo_decode_wf (first : Bool) (cls : Nat → Bool) :
    ∀ fuel rem {L}, decodeListGo fuel rem = some L → ∀ k acc,
      locFLGo first cls fuel rem k acc = .ok (flFold first cls L k acc) := by
  intro fuel
  induction fuel with
  | zero =>
    intro rem L h k acc
    rcases decodeListGo_inv h with ⟨hr, hL⟩ | ⟨f', cp, w, L', hf, _, _, _⟩
    · subst hr; subst hL; rfl
    · exact absurd hf (by omega)
  | succ f ih =>
    intro rem L h k acc
    rcases decodeListGo_inv h with ⟨hr, hL⟩ | ⟨f', cp, w, L', hf, hnext, hL, hrec⟩
    · subst hr; subst hL; rfl
    · have hf' : f' = f := by omega
      subst hf'
      subst hL
      rcases rem with _ | ⟨b, t⟩
      · exact absurd hnext (by simp [decodeNext])
      · rw [locFLGo_step, hnext]
        dsimp only
        simp only [ih _ hrec]
        cases hc : cls cp <;> cases first <;> simp [flFold, hc]

/-- The occurrence-collecting loop equals the fold over the decoded
sequence. -/
theorem collectIdxGo_decode (cls : Nat → Bool) : ∀ fuel rem k,
    collectIdxGo cls fuel rem k =
      exceptOfDecode (fun L => occFold cls L k) (decodeListGo fuel rem) := by
  intro fuel
  induction fuel with
  | zero =>
    intro rem k
    cases rem with
    | nil => rfl
    | cons b t =>
      rw [collectIdxGo_step, decodeListGo_step]
      cases hd : decodeNext (b :: t) with
      | none => rfl
      | some p => rcases p with ⟨cp, w⟩; rfl
  | succ f ih =>
    intro rem k
    cases rem with
    | nil => rfl
    | cons b t =>
      rw [collectIdxGo_step, decodeListGo_step]
      cases hd : decodeNext (b :: t) with
      | none => rfl
      | some p =>
        rcases p with ⟨cp, w⟩
        dsimp only
        simp only [ih]
        cases hrec : decodeListGo f ((b :: t).drop w) with
        | none => cases hc : cls cp <;> simp [hc, exceptOfDecode, Except.map]
        | some L' => cases hc : cls cp <;> simp [hc, exceptOfDecode, occFold, Except.map]

/-- The span-collecting loop equals the fold over the decoded sequence. -/
theorem collectSpansGo_decode (cls : Nat → Bool) (mrg : Bool) : ∀ fuel rem jlast acc sb,
    collectSpansGo cls mrg fuel rem jlast acc sb =
      exceptOfDecode (fun L => spanFold cls mrg L jlast acc sb) (decodeListGo fuel rem) := by
  intro fuel
  induction fuel with
  | zero =>
    intro rem jlast acc sb
    cases rem with
    | nil => rfl
    | cons b t =>
      rw [collectSpansGo_step, decodeListGo_step]
      cases hd : decodeNext (b :: t) with
      | none => rfl
      | some p => rcases p with ⟨cp, w⟩; rfl
  | succ f ih =>
    intro rem jlast acc sb
    cases rem with
    | nil => rfl
    | cons b t =>
      rw [collectSpansGo_step, decodeListGo_step]
      cases hd : decodeNext (b :: t) with
      | none => rfl
      | some p =>
        rcases p with ⟨cp, w⟩
        dsimp only
        simp only [ih]
        cases hrec : decodeListGo f ((b :: t).drop w) with
        | none => cases hc : cls cp <;> simp [hc, exceptOfDecode]
        | some L' => cases hc : cls cp <;> simp [hc, exceptOfDecode, spanFold]

/-- The forward first-match loop equals the fold when the input is
well-formed. -/
theorem findFirstGo_decode_wf (cls : Nat → Bool) :
    ∀ fuel rem {L}, decodeListGo fuel rem = some L → ∀ jlast,
      findFirstGo cls fuel rem jlast = .ok (ffFold cls L jlast) := by
  intro fuel
  induction fuel with
  | zero =>
    intro rem L h jlast
    rcases decodeListGo_inv h with ⟨hr, hL⟩ | ⟨f', cp, w, L', hf, _, _, _⟩
    · subst hr; subst hL; rfl
    · exact absurd hf (by omega)
  | succ f ih =>
    intro rem L h jlast
    rcases decodeListGo_inv h with ⟨hr, hL⟩ | ⟨f', cp, w, L', hf, hnext, hL, hrec⟩
    · subst hr; subst hL; rfl
    · have hf' : f' = f := by omega
      subst hf'
      subst hL
      rcases rem with _ | ⟨b, t⟩
      · exact absurd hnext (by simp [decodeNext])
      · rw [findFirstGo_step, hnext]
        dsimp only
        simp only [ih _ hrec]
        cases hc : cls cp <;> simp [ffFold, hc]

/-- The spec's backward-scan reference is the replace-last search loop
with found/not-found read off `j = jlast`: the two are the same backward
scan for every input, malformed ones included. -/
theorem lastScanRefGo_eq_findLastGo (cls : Nat → Bool) (s : List Nat) : ∀ fuel pos,
    lastScanRefGo cls s fuel pos =
      (findLastGo cls s fuel pos).map (fun p => if p.1 = p.2 then none else some p) := by
  intro fuel
  induction fuel with
  | zero =>
    intro pos
    rw [lastScanRefGo_step, findLastGo_step]
    by_cases h0 : pos = 0
    · subst h0
      simp [Except.map]
    · rw [if_neg h0, if_neg h0]
      cases hd : decodePrev s pos with
      | none => simp [Except.map]
      | some p => rcases p with ⟨cp, st⟩; simp [Except.map]
  | succ f ih =>
    intro pos
    rw [lastScanRefGo_step, findLastGo_step]
    by_cases h0 : pos = 0
    · subst h0
      simp [Except.map]
    · rw [if_neg h0, if_neg h0]
      cases hd : decodePrev s pos with
      | none => simp [Except.map]
      | some p =>
        rcases p with ⟨cp, st⟩
        dsimp only
        cases hc : cls cp
        · simp only [Bool.false_eq_true, if_false]
          exact ih st
        · have hne : st ≠ pos := Nat.ne_of_lt (decodePrev_lt hd)
          simp [Except.map, hne]

/-- The backward search loop of replace-last, run from the byte boundary
after the first `k` code points of a well-formed string, computes the
backward fold over those code points. -/
theorem findLastGo_spec (cls : Nat → Bool) {s : List Nat} {L : List (Nat × Nat)}
    (h : decodeList s = some L) :
    ∀ k, k ≤ L.length → ∀ fuel, k ≤ fuel →
      findLastGo cls s fuel (wsum (L.take k)) =
        .ok (lastSpanRev cls (L.take k).reverse (wsum (L.take k))) := by
  have h' : decodeListGo s.length s = some L := h
  have hw1 := decodeListGo_w1 h'
  intro k
  induction k with
  | zero =>
    intro _ fuel _
    rw [findLastGo_step]
    simp [wsum, lastSpanRev]
  | succ k' ih =>
    intro hk fuel hfuel
    have hk' : k' < L.length := by omega
    have hpos0 : wsum (L.take (k' + 1)) ≠ 0 := by
      have hlt := wsum_take_lt hw1 0 (k' + 1) (by omega) (by omega)
      simp only [List.take_zero, wsum_nil] at hlt
      omega
    rcases hg : L.get ⟨k', hk'⟩ with ⟨cp, w⟩
    have hbd := decodePrev_boundary h k' hk'
    rw [hg] at hbd
    have hsucc : wsum (L.take (k' + 1)) = wsum (L.take k') + w := by
      rw [wsum_take_succ k' hk', hg]
    rw [List.get_eq_getElem] at hg
    have hrev : (L.take (k' + 1)).reverse = (cp, w) :: (L.take k').reverse := by
      rw [← List.take_concat_get' L k' hk', hg]
      simp
    rw [findLastGo_step, if_neg hpos0, hbd]
    cases fuel with
    | zero => omega
    | succ f =>
      dsimp only
      cases hc : cls cp
      · simp only [Bool.false_eq_true, if_false]
        rw [ih (by omega) f (by omega)]
        rw [hrev]
        simp only [lastSpanRev, hc, Bool.false_eq_true, if_false]
        rw [show wsum (L.take (k' + 1)) - w = wsum (L.take k') from by omega]
      · simp only [if_true]
        rw [hrev]
        simp only [lastSpanRev, hc, if_true]
        rw [show wsum (L.take (k' + 1)) - w = wsum (L.take k') from by omega]

/-! ## Facts about the list-level folds -/

theorem length_le_wsum {L : List (Nat × Nat)} (h : ∀ p ∈ L, 1 ≤ p.2) :
    L.length ≤ wsum L := by
  induction L with
  | nil => simp [wsum]
  | cons p t ih =>
    rw [wsum_cons]
    have hp := h p (List.mem_cons_self p t)
    have := ih (fun q hq => h q (List.mem_cons_of_mem p hq))
    simp only [List.length_cons]
    omega

/-- With `first = true` the locate loop returns the head of the
occurrence list. -/
theorem flFold_true_head (cls : Nat → Bool) : ∀ L k,
    flFold true cls L k none = (occFold cls L k).head? := by
  intro L
  induction L with
  | nil => intro k; rfl
  | cons p t ih =>
    intro k
    rcases p with ⟨cp, w⟩
    cases hc : cls cp <;> simp [flFold, occFold, hc, ih]

/-- With `first = false` the locate loop returns the last occurrence
(or the incoming accumulator when there is none). -/
theorem flFold_false_getLast (cls : Nat → Bool) : ∀ L k acc,
    flFold false cls L k acc =
      match (occFold cls L k).getLast? with
      | some x => some x
      | none => acc := by
  intro L
  induction L with
  | nil => intro k acc; rfl
  | cons p t ih =>
    intro k acc
    rcases p with ⟨cp, w⟩
    cases hc : cls cp
    · simp only [flFold, occFold, hc, Bool.false_eq_true, if_false]
      exact ih (k + 1) acc
    · simp only [flFold, occFold, hc, if_true, Bool.false_eq_true, if_false]
      rw [ih (k + 1) (some (k + 1))]
      cases hocc : occFold cls t (k + 1) with
      | nil => simp
      | cons y ys =>
        cases hl : (y :: ys).getLast? with
        | none => exact absurd (List.getLast?_eq_none_iff.mp hl) (by simp)
        | some z => rw [List.getLast?_cons_cons, hl]

/-- Every recorded occurrence index lies in `(k, k + |L|]`. -/
theorem occFold_bounds (cls : Nat → Bool) : ∀ L k x, x ∈ occFold cls L k →
    k < x ∧ x ≤ k + L.length := by
  intro L
  induction L with
  | nil => intro k x hx; exact absurd hx (List.not_mem_nil x)
  | cons p t ih =>
    intro k x hx
    rcases p with ⟨cp, w⟩
    by_cases hc : cls cp = true
    · simp only [occFold, hc, if_true] at hx
      rcases List.mem_cons.mp hx with hx | hx
      · subst hx; simp
      · have := ih (k + 1) x hx
        simp only [List.length_cons]
        omega
    · simp only [occFold, hc, if_false] at hx
      have := ih (k + 1) x hx
      simp only [List.length_cons]
      omega

/-- Occurrence indices are strictly increasing. -/
theorem occFold_chain (cls : Nat → Bool) : ∀ L k, List.Chain' (· < ·) (occFold cls L k) := by
  intro L
  induction L with
  | nil => intro k; simp [occFold]
  | cons p t ih =>
    intro k
    rcases p with ⟨cp, w⟩
    by_cases hc : cls cp = true
    · simp only [occFold, hc, if_true]
      rw [List.chain'_cons']
      refine ⟨?_, ih (k + 1)⟩
      intro y hy
      have := occFold_bounds cls t (k + 1) y (List.mem_of_mem_head? hy)
      omega
    · simp only [occFold, hc, if_false]
      exact ih (k + 1)

theorem occFold_append (cls : Nat → Bool) : ∀ L1 L2 k,
    occFold cls (L1 ++ L2) k = occFold cls L1 k ++ occFold cls L2 (k + L1.length) := by
  intro L1
  induction L1 with
  | nil => intro L2 k; simp [occFold]
  | cons p t ih =>
    intro L2 k
    rcases p with ⟨cp, w⟩
    by_cases hc : cls cp = true <;>
      simp [occFold, hc, ih, Nat.add_assoc, Nat.add_comm 1 t.length]

/-- The backward scan over a whole well-formed decoded sequence finds the
byte span of the last occurrence (element of `occFold`), or `(0, 0)` when
there is none. -/
theorem lastSpanRev_occ (cls : Nat → Bool) : ∀ L : List (Nat × Nat),
    lastSpanRev cls L.reverse (wsum L) =
      match (occFold cls L 0).getLast? with
      | none => (0, 0)
      | some x => (wsum (L.take (x - 1)), wsum (L.take x)) := by
  intro L
  induction L using List.reverseRecOn with
  | nil => rfl
  | append_singleton L p ih =>
    rcases p with ⟨cp, w⟩
    rw [occFold_append, List.reverse_append]
    simp only [List.reverse_singleton, List.singleton_append, wsum_append]
    have hw : wsum [(cp, w)] = w := by simp [wsum]
    cases hc : cls cp
    · have hocc1 : occFold cls [(cp, w)] (0 + L.length) = [] := by simp [occFold, hc]
      rw [hocc1, List.append_nil, hw]
      simp only [lastSpanRev, hc]
      rw [if_neg (by simp)]
      rw [show wsum L + w - w = wsum L from by omega, ih]
      cases hl : (occFold cls L 0).getLast? with
      | none => rfl
      | some x =>
        have hx := occFold_bounds cls L 0 x (List.mem_of_mem_getLast? hl)
        have t1 : (L ++ [(cp, w)]).take (x - 1) = L.take (x - 1) := by
          rw [List.take_append_eq_append_take, show x - 1 - L.length = 0 from by omega]
          simp
        have t2 : (L ++ [(cp, w)]).take x = L.take x := by
          rw [List.take_append_eq_append_take, show x - L.length = 0 from by omega]
          simp
        dsimp only
        rw [t1, t2]
    · have hocc1 : occFold cls [(cp, w)] (0 + L.length) = [0 + L.length + 1] := by
        simp [occFold, hc]
      rw [hocc1, List.getLast?_concat, hw]
      simp only [lastSpanRev, hc]
      rw [if_pos trivial]
      have h1 : (L ++ [(cp, w)]).take (0 + L.length + 1 - 1) = L := by
        rw [show 0 + L.length + 1 - 1 = L.length from by omega,
          List.take_append_eq_append_take, List.take_length,
          show L.length - L.length = 0 from by omega]
        simp
      have h2 : (L ++ [(cp, w)]).take (0 + L.length + 1) = L ++ [(cp, w)] := by
        rw [show 0 + L.length + 1 = (L ++ [(cp, w)]).length from by simp]
        exact List.take_length _
      rw [h1, h2, wsum_append, hw, show wsum L + w - w = wsum L from by omega]

/-- The replace-last backward search over a whole well-formed string. -/
theorem findLast_spec {cls : Nat → Bool} {s : List Nat} {L : List (Nat × Nat)}
    (h : decodeList s = some L) :
    findLast cls s = .ok (lastSpanRev cls L.reverse (wsum L)) := by
  have h' : decodeListGo s.length s = some L := h
  have hw1 := decodeListGo_w1 h'
  have hn : wsum L = s.length := decodeListGo_wsum h'
  have hlen : L.length ≤ s.length := by
    have := length_le_wsum hw1
    omega
  have hspec := findLastGo_spec cls h L.length (le_refl _) s.length hlen
  rw [List.take_length] at hspec
  unfold findLast
  nth_rewrite 2 [← hn]
  exact hspec

/-! ## Driver lemmas -/

theorem StriErr_eq (e : StriErr) : e = .invalidUTF8 := by cases e; rfl

theorem mapRows_cons (f : α → Except StriErr β) (a : α) (t : List α) :
    mapRows f (a :: t) =
      match f a with
      | .error e => .error e
      | .ok b => (mapRows f t).map (b :: ·) := rfl

/-- A row whose processing throws aborts the whole call: the only
possible output of the driver is the error itself, never a partial
collection. -/
theorem mapRows_error_of_mem {f : α → Except StriErr β} {rows : List α} {r : α}
    (hr : r ∈ rows) (he : f r = .error .invalidUTF8) :
    mapRows f rows = .error .invalidUTF8 := by
  induction rows with
  | nil => exact absurd hr (List.not_mem_nil r)
  | cons a t ih =>
    rw [mapRows_cons]
    cases hfa : f a with
    | error e => rw [StriErr_eq e]
    | ok b =>
      rcases List.mem_cons.mp hr with hr' | hr'
      · subst hr'; rw [hfa] at he; exact Except.noConfusion he
      · rw [ih hr']; rfl

/-- C5: a malformed UTF-8 byte sequence encountered while processing any
non-missing row aborts the entire call of every locate and replace
operation with the Invalid Encoding failure — no per-row missing result
is substituted, no partial output collection is returned, and rows after
the failing one are not processed; moreover, for the full-scan
operations, a non-missing row whose string fails to decode does make the
row processing throw that failure. -/
theorem claim_C5 :
    (∀ (first : Bool) (rows : List LocateArgs) (r : LocateArgs), r ∈ rows →
      locateFLRow first r.str r.pat = .error .invalidUTF8 →
      stri__locate_firstlast_charclass first rows = .error .invalidUTF8) ∧
    (∀ (rows : List LocateAllArgs) (r : LocateAllArgs), r ∈ rows →
      locateAllRow r.str r.pat r.mrg = .error .invalidUTF8 →
      stri_locate_all_charclass rows = .error .invalidUTF8) ∧
    (∀ (rows : List ReplaceAllArgs) (r : ReplaceAllArgs), r ∈ rows →
      replaceAllRow r.str r.pat r.repl r.mrg = .error .invalidUTF8 →
      stri_replace_all_charclass rows = .error .invalidUTF8) ∧
    (∀ (first : Bool) (rows : List ReplaceArgs) (r : ReplaceArgs), r ∈ rows →
      replaceFLRow first r.str r.pat r.repl = .error .invalidUTF8 →
      stri__replace_firstlast_charclass first rows = .error .invalidUTF8) ∧
    (∀ (s : List Nat) (cls : Nat → Bool) (m : Bool) (rep : List Nat), decodeList s = none →
      locateAllRow (some s) (some cls) (some m) = .error .invalidUTF8 ∧
      replaceAllRow (some s) (some cls) (some rep) (some m) = .error .invalidUTF8 ∧
      locateFLRow false (some s) (some cls) = .error .invalidUTF8) := by
  refine ⟨?_, ?_, ?_, ?_, ?_⟩
  · intro first rows r hr he
    exact mapRows_error_of_mem hr he
  · intro rows r hr he
    exact mapRows_error_of_mem hr he
  · intro rows r hr he
    exact mapRows_error_of_mem hr he
  · intro first rows r hr he
    exact mapRows_error_of_mem hr he
  · intro s cls m rep hbad
    have hgo : decodeListGo s.length s = none := hbad
    refine ⟨?_, ?_, ?_⟩
    · show (collectIndices cls s).map (locAllRes m) = Except.error StriErr.invalidUTF8
      unfold collectIndices
      rw [collectIdxGo_decode, hgo]
      rfl
    · show (match collectSpans cls m s with
        | Except.error e => Except.error e
        | Except.ok (sp, _) =>
          if sp.isEmpty then Except.ok (some s) else Except.ok (some (copyPass s rep sp 0))) =
        Except.error StriErr.invalidUTF8
      unfold collectSpans
      rw [collectSpansGo_decode, hgo]
      rfl
    · show (locFLGo false cls s.length s 0 none).map (fun r => (r, r)) =
        Except.error StriErr.invalidUTF8
      rw [locFLGo_decode, hgo]
      rfl

/-- C5 witness: a one-row call with an invalid lead byte aborts. -/
theorem claim_C5_witness :
    stri_replace_all_charclass
      [⟨some [0xFF], some (fun _ => true), some [], some false⟩] = .error .invalidUTF8 :=
  claim_C5.2.2.1 [⟨some [0xFF], some (fun _ => true), some [], some false⟩]
    ⟨some [0xFF], some (fun _ => true), some [], some false⟩
    (List.mem_singleton.mpr rfl) rfl

/-- C6: a missing value among a row's required inputs makes that row's
result the missing sentinel, regardless of every other input (the row's
string is never decoded, so even a malformed string is irrelevant), and
the driver continues with the next row. -/
theorem claim_C6 :
    (∀ (first : Bool) (str : Option (List Nat)) (pat : Option (Nat → Bool)),
      str = none ∨ pat = none → locateFLRow first str pat = .ok (none, none)) ∧
    (∀ (str : Option (List Nat)) (pat : Option (Nat → Bool)) (mrg : Option Bool),
      str = none ∨ pat = none ∨ mrg = none → locateAllRow str pat mrg = .ok [(none, none)]) ∧
    (∀ (first : Bool) (str : Option (List Nat)) (pat : Option (Nat → Bool))
        (repl : Option (List Nat)),
      str = none ∨ pat = none ∨ repl = none → replaceFLRow first str pat repl = .ok none) ∧
    (∀ (str : Option (List Nat)) (pat : Option (Nat → Bool)) (repl : Option (List Nat))
        (mrg : Option Bool),
      str = none ∨ pat = none ∨ repl = none ∨ mrg = none →
      replaceAllRow str pat repl mrg = .ok none) ∧
    (∀ (first : Bool) (a : LocateArgs) (rows : List LocateArgs),
      a.str = none ∨ a.pat = none →
      stri__locate_firstlast_charclass first (a :: rows) =
        (stri__locate_firstlast_charclass first rows).map ((none, none) :: ·)) ∧
    (∀ (a : LocateAllArgs) (rows : List LocateAllArgs),
      a.str = none ∨ a.pat = none ∨ a.mrg = none →
      stri_locate_all_charclass (a :: rows) =
        (stri_locate_all_charclass rows).map ([(none, none)] :: ·)) ∧
    (∀ (first : Bool) (a : ReplaceArgs) (rows : List ReplaceArgs),
      a.str = none ∨ a.pat = none ∨ a.repl = none →
      stri__replace_firstlast_charclass first (a :: rows) =
        (stri__replace_firstlast_charclass first rows).map (none :: ·)) ∧
    (∀ (a : ReplaceAllArgs) (rows : List ReplaceAllArgs),
      a.str = none ∨ a.pat = none ∨ a.repl = none ∨ a.mrg = none →
      stri_replace_all_charclass (a :: rows) =
        (stri_replace_all_charclass rows).map (none :: ·)) := by
  have hfl : ∀ (first : Bool) (str : Option (List Nat)) (pat : Option (Nat → Bool)),
      str = none ∨ pat = none → locateFLRow first str pat = .ok (none, none) := by
    intro first str pat h
    rcases h with h | h <;> subst h
    · cases pat <;> rfl
    · cases str <;> rfl
  have hall : ∀ (str : Option (List Nat)) (pat : Option (Nat → Bool)) (mrg : Option Bool),
      str = none ∨ pat = none ∨ mrg = none → locateAllRow str pat mrg = .ok [(none, none)] := by
    intro str pat mrg h
    rcases h with h | h | h <;> subst h
    · cases pat <;> cases mrg <;> rfl
    · cases str <;> cases mrg <;> rfl
    · cases str <;> cases pat <;> rfl
  have hrfl : ∀ (first : Bool) (str : Option (List Nat)) (pat : Option (Nat → Bool))
      (repl : Option (List Nat)),
      str = none ∨ pat = none ∨ repl = none → replaceFLRow first str pat repl = .ok none := by
    intro first str pat repl h
    rcases h with h | h | h <;> subst h
    · cases pat <;> cases repl <;> rfl
    · cases str <;> cases repl <;> rfl
    · cases str <;> cases pat <;> rfl
  have hrall : ∀ (str : Option (List Nat)) (pat : Option (Nat → Bool))
      (repl : Option (List Nat)) (mrg : Option Bool),
      str = none ∨ pat = none ∨ repl = none ∨ mrg = none →
      replaceAllRow str pat repl mrg = .ok none := by
    intro str pat repl mrg h
    rcases h with h | h | h | h <;> subst h
    · cases pat <;> cases repl <;> cases mrg <;> rfl
    · cases str <;> cases repl <;> cases mrg <;> rfl
    · cases str <;> cases pat <;> cases mrg <;> rfl
    · cases str <;> cases pat <;> cases repl <;> rfl
  refine ⟨hfl, hall, hrfl, hrall, ?_, ?_, ?_, ?_⟩
  · intro first a rows h
    show mapRows _ (a :: rows) = _
    rw [mapRows_cons, hfl first a.str a.pat h]
    rfl
  · intro a rows h
    show mapRows _ (a :: rows) = _
    rw [mapRows_cons, hall a.str a.pat a.mrg h]
    rfl
  · intro first a rows h
    show mapRows _ (a :: rows) = _
    rw [mapRows_cons, hrfl first a.str a.pat a.repl h]
    rfl
  · intro a rows h
    show mapRows _ (a :: rows) = _
    rw [mapRows_cons, hrall a.str a.pat a.repl a.mrg h]
    rfl

/-- C6 witness: a missing class predicate yields the `NA` sentinel even
for a malformed string (which is therefore never decoded), and the call
goes on to process the following row. -/
theorem claim_C6_witness :
    replaceAllRow (some [0xFF]) none (some []) (some true) = .ok none ∧
    stri_replace_all_charclass
      [⟨some [0xFF], none, some [], some true⟩,
       ⟨some [97], some (fun c => c == 97), some [95], some false⟩] = .ok [none, some [95]] := by
  constructor
  · exact claim_C6.2.2.2.1 (some [0xFF]) none (some []) (some true) (Or.inr (Or.inl rfl))
  · rw [claim_C6.2.2.2.2.2.2.2 ⟨some [0xFF], none, some [], some true⟩
      [⟨some [97], some (fun c => c == 97), some [95], some false⟩] (Or.inr (Or.inl rfl))]
    rfl

/-! ## Claims C1 and C2 -/

theorem option_match_id (o : Option Nat) :
    (match o with | some x => some x | none => none) = o := by
  cases o <;> rfl

/-- C1 counterexample: on the row `([0xFF, 'a'], class {'a'})` the
locate-last operation scans forward, hits the invalid lead byte `0xFF`
before ever reaching the match, and aborts the whole call — while the
spec's backward-scan reference (and the replace-last search, which really
does scan backward) finds the match `'a'` at bytes `[1, 2)` without ever
decoding the bad byte.  So the locate-last result does not equal the
backward-scan reference result. -/
theorem claim_C1_counterexample :
    stri_locate_last_charclass [⟨some [0xFF, 0x61], some (fun c => c == 0x61)⟩] =
      .error .invalidUTF8 ∧
    lastCollectorBwdRef (fun c => c == 0x61) [0xFF, 0x61] = .ok (some (1, 2)) ∧
    stri_replace_last_charclass
      [⟨some [0xFF, 0x61], some (fun c => c == 0x61), some [95]⟩] =
      .ok [some [0xFF, 95]] := by
  refine ⟨by decide, by decide, by decide⟩

/-- C1 (amended): the replace-last collector is exactly the spec's
backward scan — on every input, malformed ones included, the backward
reference returns precisely the replace-last search outcome.  The
locate-last collector instead scans forward over the entire string
(per the source comment, a proper 1-based code-point index needs the
forward count): on well-formed input it returns the index of the last
matching code point — the same code point whose byte span the backward
scan finds — but its scan order is forward, observably so on malformed
input. -/
theorem claim_C1_amended :
    (∀ (cls : Nat → Bool) (s : List Nat),
      lastCollectorBwdRef cls s =
        (findLast cls s).map (fun p => if p.1 = p.2 then none else some p)) ∧
    (∀ (cls : Nat → Bool) (s : List Nat) (L : List (Nat × Nat)), decodeList s = some L →
      locateFLRow false (some s) (some cls) =
        .ok ((occFold cls L 0).getLast?, (occFold cls L 0).getLast?) ∧
      findLast cls s = .ok (match (occFold cls L 0).getLast? with
        | none => (0, 0)
        | some x => (wsum (L.take (x - 1)), wsum (L.take x)))) := by
  constructor
  · intro cls s
    exact lastScanRefGo_eq_findLastGo cls s s.length s.length
  · intro cls s L h
    constructor
    · show (locFLGo false cls s.length s 0 none).map (fun r => (r, r)) = _
      rw [locFLGo_decode_wf false cls s.length s h 0 none]
      rw [flFold_false_getLast, option_match_id]
      rfl
    · rw [findLast_spec h, lastSpanRev_occ]

/-- C1 witness: on `"aba"` with class `{'a'}`, locate-last reports the
1-based code-point index 3 and the backward search finds byte span
`[2, 3)`. -/
theorem claim_C1_witness :
    locateFLRow false (some [97, 98, 97]) (some (fun c => c == 97)) = .ok (some 3, some 3) ∧
    findLast (fun c => c == 97) [97, 98, 97] = .ok (2, 3) := by
  have h := claim_C1_amended.2 (fun c => c == 97) [97, 98, 97]
    [(97, 1), (98, 1), (97, 1)] (by decide)
  exact ⟨h.1.trans (by decide), h.2.trans (by decide)⟩

/-- C2 counterexample: the `notfound` sentinel row set for a missing row
is the very same value as the one set for a present row with zero
matches — the two outcomes are not distinguished in the operation's
output. -/
theorem claim_C2_counterexample :
    locateAllRow (some []) (some (fun c => c == 97)) (some true) = .ok [(none, none)] ∧
    locateAllRow none (some (fun c => c == 97)) (some true) = .ok [(none, none)] ∧
    stri_locate_all_charclass [⟨some [], some (fun c => c == 97), some true⟩] =
      stri_locate_all_charclass [⟨none, some (fun c => c == 97), some true⟩] := by
  refine ⟨by decide, by decide, by decide⟩

/-- C2 (amended): a row with all inputs present and zero matching code
points (an empty string included) is a first-class non-error outcome —
the row is processed, yields the `notfound` sentinel row, and the call
goes on — but in the operation's output that sentinel is identical to
the one produced for a missing row, so the two outcomes are rendered
the same, not distinguished. -/
theorem claim_C2_amended :
    ∀ (s : List Nat) (cls : Nat → Bool) (m : Bool) (L : List (Nat × Nat)),
      decodeList s = some L → occFold cls L 0 = [] →
      locateAllRow (some s) (some cls) (some m) = .ok [(none, none)] ∧
      (∀ (pat : Option (Nat → Bool)) (mrg : Option Bool),
        locateAllRow none pat mrg = .ok [(none, none)]) := by
  intro s cls m L h hocc
  constructor
  · show (collectIndices cls s).map (locAllRes m) = _
    unfold collectIndices
    have h' : decodeListGo s.length s = some L := h
    rw [collectIdxGo_decode, exceptOfDecode_ok h', hocc]
    rfl
  · intro pat mrg
    cases pat <;> cases mrg <;> rfl

/-- C2 witness: `"xyz"` with class `{'a'}` yields the sentinel row. -/
theorem claim_C2_witness :
    locateAllRow (some [120, 121, 122]) (some (fun c => c == 97)) (some true) =
      .ok [(none, none)] :=
  (claim_C2_amended [120, 121, 122] (fun c => c == 97) true
    [(120, 1), (121, 1), (122, 1)] (by decide) (by decide)).1

/-! ## Claim C4: zero matches return the original string -/

theorem spanFold_nomatch (cls : Nat → Bool) (m : Bool) :
    ∀ (L : List (Nat × Nat)) (jl : Nat) (acc : List (Nat × Nat)) (sb : Nat),
      (∀ p ∈ L, cls p.1 = false) →
      spanFold cls m L jl acc sb = (acc.reverse, sb) := by
  intro L
  induction L with
  | nil => intro jl acc sb _; rfl
  | cons p t ih =>
    intro jl acc sb hno
    rcases p with ⟨cp, w⟩
    have hc : cls cp = false := hno (cp, w) (List.mem_cons_self _ _)
    simp only [spanFold, hc, Bool.false_eq_true, if_false]
    exact ih (jl + w) acc sb (fun q hq => hno q (List.mem_cons_of_mem _ hq))

theorem ffFold_nomatch (cls : Nat → Bool) :
    ∀ (L : List (Nat × Nat)) (jl : Nat), (∀ p ∈ L, cls p.1 = false) →
      ffFold cls L jl = (jl + wsum L, jl + wsum L) := by
  intro L
  induction L with
  | nil => intro jl _; simp [ffFold, wsum]
  | cons p t ih =>
    intro jl hno
    rcases p with ⟨cp, w⟩
    have hc : cls cp = false := hno (cp, w) (List.mem_cons_self _ _)
    simp only [ffFold, hc, Bool.false_eq_true, if_false]
    rw [ih (jl + w) (fun q hq => hno q (List.mem_cons_of_mem _ hq)), wsum_cons]
    simp only [Prod.mk.injEq]
    constructor <;> omega

theorem lastSpanRev_nomatch (cls : Nat → Bool) :
    ∀ (M : List (Nat × Nat)) (pos : Nat), (∀ p ∈ M, cls p.1 = false) →
      lastSpanRev cls M pos = (0, 0) := by
  intro M
  induction M with
  | nil => intro pos _; rfl
  | cons p t ih =>
    intro pos hno
    rcases p with ⟨cp, w⟩
    have hc : cls cp = false := hno (cp, w) (List.mem_cons_self _ _)
    simp only [lastSpanRev, hc, Bool.false_eq_true, if_false]
    exact ih (pos - w) (fun q hq => hno q (List.mem_cons_of_mem _ hq))

/-- C4: on a well-formed row in which no code point satisfies the class
(the empty string included), every replace operation returns the original
input string unchanged, byte-identical. -/
theorem claim_C4 :
    ∀ (cls : Nat → Bool) (s : List Nat) (L : List (Nat × Nat)),
      decodeList s = some L → (∀ p ∈ L, cls p.1 = false) →
      (∀ (r : List Nat) (m : Bool),
        replaceAllRow (some s) (some cls) (some r) (some m) = .ok (some s)) ∧
      (∀ r : List Nat, replaceFLRow true (some s) (some cls) (some r) = .ok (some s)) ∧
      (∀ r : List Nat, replaceFLRow false (some s) (some cls) (some r) = .ok (some s)) := by
  intro cls s L h hno
  have h' : decodeListGo s.length s = some L := h
  refine ⟨?_, ?_, ?_⟩
  · intro r m
    show (match collectSpans cls m s with
      | Except.error e => Except.error e
      | Except.ok (sp, _) =>
        if sp.isEmpty then Except.ok (some s) else Except.ok (some (copyPass s r sp 0))) =
      Except.ok (some s)
    unfold collectSpans
    rw [collectSpansGo_decode, exceptOfDecode_ok h', spanFold_nomatch cls m L 0 [] 0 hno]
    rfl
  · intro r
    show (match findFirst cls s with
      | Except.error e => Except.error e
      | Except.ok (jlast, j) =>
        if j = jlast then Except.ok (some s)
        else Except.ok (some (s.take jlast ++ r ++ s.drop j))) = Except.ok (some s)
    unfold findFirst
    rw [findFirstGo_decode_wf cls s.length s h' 0, ffFold_nomatch cls L 0 hno]
    simp
  · intro r
    show (match findLast cls s with
      | Except.error e => Except.error e
      | Except.ok (jlast, j) =>
        if j = jlast then Except.ok (some s)
        else Except.ok (some (s.take jlast ++ r ++ s.drop j))) = Except.ok (some s)
    rw [findLast_spec h,
      lastSpanRev_nomatch cls L.reverse (wsum L) (fun q hq => hno q (List.mem_reverse.mp hq))]
    rfl

/-- C4 witness: zero matches on `"xyz"` with class `{'a'}`. -/
theorem claim_C4_witness :
    replaceAllRow (some [120, 121, 122]) (some (fun c => c == 97)) (some [95]) (some true) =
      .ok (some [120, 121, 122]) ∧
    replaceFLRow false (some [120, 121, 122]) (some (fun c => c == 97)) (some [95]) =
      .ok (some [120, 121, 122]) := by
  have h := claim_C4 (fun c => c == 97) [120, 121, 122]
    [(120, 1), (121, 1), (122, 1)] (by decide) (by decide)
  exact ⟨h.1 [95] true, h.2.2 [95]⟩

/-! ## Claim C8: first vs. all consistency -/

theorem mergeIdxGo_head : ∀ (os : List Nat) (cur : Nat × Nat) (racc : List (Nat × Nat)),
    ∃ c2 tail, mergeIdxGo os cur racc = racc.reverse ++ (cur.1, c2) :: tail := by
  intro os
  induction os with
  | nil =>
    intro cur racc
    exact ⟨cur.2, [], by simp [mergeIdxGo]⟩
  | cons o os ih =>
    intro cur racc
    by_cases hadj : cur.2 + 1 = o
    · rcases ih (cur.1, o) racc with ⟨c2, tail, htail⟩
      refine ⟨c2, tail, ?_⟩
      simp only [mergeIdxGo, hadj, if_true]
      exact htail
    · rcases ih (o, o) (cur :: racc) with ⟨c2, tail, htail⟩
      refine ⟨cur.2, (o, c2) :: tail, ?_⟩
      simp only [mergeIdxGo, hadj, if_false]
      rw [htail]
      simp

/-- C8: when there is at least one match, the first run of the merged
locate-all result starts at the locate-first index. -/
theorem claim_C8 :
    ∀ (cls : Nat → Bool) (s : List Nat) (L : List (Nat × Nat)) (k : Nat) (ks : List Nat),
      decodeList s = some L → occFold cls L 0 = k :: ks →
      (∃ c2 rest, locateAllRow (some s) (some cls) (some true) =
        .ok ((some k, some c2) :: rest)) ∧
      locateFLRow true (some s) (some cls) = .ok (some k, some k) := by
  intro cls s L k ks h hocc
  have h' : decodeListGo s.length s = some L := h
  constructor
  · show ∃ c2 rest, (collectIndices cls s).map (locAllRes true) = .ok ((some k, some c2) :: rest)
    unfold collectIndices
    rw [collectIdxGo_decode, exceptOfDecode_ok h', hocc]
    cases ks with
    | nil => exact ⟨k, [], rfl⟩
    | cons k2 ks' =>
      rcases mergeIdxGo_head (k2 :: ks') (k, k) [] with ⟨c2, tail, htail⟩
      refine ⟨c2, tail.map (fun p => (some p.1, some p.2)), ?_⟩
      show Except.ok (locAllRes true (k :: k2 :: ks')) = _
      unfold locAllRes
      rw [if_neg (by simp), if_pos (by simp)]
      rw [show mergeIdx (k :: k2 :: ks') = mergeIdxGo (k2 :: ks') (k, k) [] from rfl, htail]
      simp
  · show (locFLGo true cls s.length s 0 none).map (fun r => (r, r)) = _
    rw [locFLGo_decode_wf true cls s.length s h' 0 none, flFold_true_head, hocc]
    rfl

/-- C8 witness: `"aab"` with class `{'a'}`: merged locate-all starts its
first run at 1, the locate-first index. -/
theorem claim_C8_witness :
    (∃ c2 rest, locateAllRow (some [97, 97, 98]) (some (fun c => c == 97)) (some true) =
      .ok ((some 1, some c2) :: rest)) ∧
    locateFLRow true (some [97, 97, 98]) (some (fun c => c == 97)) = .ok (some 1, some 1) :=
  claim_C8 (fun c => c == 97) [97, 97, 98] [(97, 1), (97, 1), (98, 1)] 1 [2]
    (by decide) (by decide)

/-! ## Span invariants (claims C9 and C3) -/

/-- Total byte length of the matched spans. -/
def sumSpans (l : List (Nat × Nat)) : Nat := (l.map (fun p => p.2 - p.1)).sum

theorem sumSpans_nil : sumSpans [] = 0 := rfl

theorem sumSpans_cons (p : Nat × Nat) (l : List (Nat × Nat)) :
    sumSpans (p :: l) = (p.2 - p.1) + sumSpans l := by
  simp [sumSpans]

theorem sumSpans_reverse (l : List (Nat × Nat)) : sumSpans l.reverse = sumSpans l := by
  simp only [sumSpans, List.map_reverse]
  exact List.sum_reverse _

/-- Invariant of the span-collecting fold: spans are nonempty, lie below
the scanned byte count, are strictly increasing and non-overlapping; in
merge mode consecutive spans are separated by a gap; `sumbytes` is the
total length of the collected spans. -/
theorem spanFold_inv (cls : Nat → Bool) (m : Bool) :
    ∀ (L : List (Nat × Nat)) (jl : Nat) (acc : List (Nat × Nat)) (sb : Nat),
      (∀ p ∈ L, 1 ≤ p.2) →
      (∀ p ∈ acc, p.1 < p.2 ∧ p.2 ≤ jl) →
      List.Chain' (fun p q => q.2 ≤ p.1) acc →
      (m = true → List.Chain' (fun p q => q.2 < p.1) acc) →
      sb = sumSpans acc →
      (∀ p ∈ (spanFold cls m L jl acc sb).1, p.1 < p.2 ∧ p.2 ≤ jl + wsum L) ∧
      List.Chain' (fun p q => p.2 ≤ q.1) (spanFold cls m L jl acc sb).1 ∧
      (m = true → List.Chain' (fun p q => p.2 < q.1) (spanFold cls m L jl acc sb).1) ∧
      (spanFold cls m L jl acc sb).2 = sumSpans (spanFold cls m L jl acc sb).1 := by
  intro L
  induction L with
  | nil =>
    intro jl acc sb _ hb hch hsep hsb
    refine ⟨?_, ?_, ?_, ?_⟩
    · intro p hp
      have := hb p (List.mem_reverse.mp hp)
      rw [wsum_nil]
      exact ⟨this.1, by omega⟩
    · exact List.chain'_reverse.mpr (by simpa [flip] using hch)
    · intro hm
      exact List.chain'_reverse.mpr (by simpa [flip] using hsep hm)
    · show sb = sumSpans acc.reverse
      rw [sumSpans_reverse]
      exact hsb
  | cons p t ih =>
    intro jl acc sb hw hb hch hsep hsb
    rcases p with ⟨cp, w⟩
    have hw1 : 1 ≤ w := hw (cp, w) (List.mem_cons_self _ _)
    have hwt : ∀ q ∈ t, 1 ≤ q.2 := fun q hq => hw q (List.mem_cons_of_mem _ hq)
    by_cases hc : cls cp = true
    · simp only [spanFold, hc, if_true]
      rcases acc with _ | ⟨⟨a, b⟩, tl⟩
      · rw [show spanPush m [] jl (jl + w) = [(jl, jl + w)] from rfl]
        obtain ⟨ib, ich, isep, isum⟩ := ih (jl + w) [(jl, jl + w)] (sb + (jl + w - jl))
          hwt
          (by intro q hq
              rcases List.mem_singleton.mp hq with rfl
              exact ⟨by omega, le_refl _⟩)
          (List.chain'_singleton _)
          (fun _ => List.chain'_singleton _)
          (by rw [sumSpans_cons, sumSpans_nil]
              rw [sumSpans_nil] at hsb
              omega)
        refine ⟨?_, ich, isep, isum⟩
        intro q hq
        have := ib q hq
        rw [wsum_cons]
        omega
      · have hab := hb (a, b) (List.mem_cons_self _ _)
        by_cases hmb : m = true ∧ b = jl
        · rw [show spanPush m ((a, b) :: tl) jl (jl + w) = (a, jl + w) :: tl from by
            simp [spanPush, hmb.1, hmb.2]]
          rcases List.chain'_cons'.mp hch with ⟨hhd, htl⟩
          obtain ⟨ib, ich, isep, isum⟩ := ih (jl + w) ((a, jl + w) :: tl) (sb + (jl + w - jl))
            hwt
            (by intro q hq
                rcases List.mem_cons.mp hq with rfl | hq
                · exact ⟨by omega, le_refl _⟩
                · have := hb q (List.mem_cons_of_mem _ hq)
                  exact ⟨this.1, by omega⟩)
            (List.chain'_cons'.mpr ⟨hhd, htl⟩)
            (by intro hm
                rcases List.chain'_cons'.mp (hsep hm) with ⟨hhd', htl'⟩
                exact List.chain'_cons'.mpr ⟨hhd', htl'⟩)
            (by rw [sumSpans_cons] at hsb ⊢
                have hbjl : b = jl := hmb.2
                omega)
          refine ⟨?_, ich, isep, isum⟩
          intro q hq
          have := ib q hq
          rw [wsum_cons]
          omega
        · rw [show spanPush m ((a, b) :: tl) jl (jl + w) = (jl, jl + w) :: (a, b) :: tl from by
            simp only [spanPush]
            rw [if_neg hmb]]
          obtain ⟨ib, ich, isep, isum⟩ := ih (jl + w) ((jl, jl + w) :: (a, b) :: tl)
            (sb + (jl + w - jl))
            hwt
            (by intro q hq
                rcases List.mem_cons.mp hq with rfl | hq
                · exact ⟨by omega, le_refl _⟩
                · have := hb q hq
                  exact ⟨this.1, by omega⟩)
            (List.chain'_cons'.mpr (by
              refine ⟨?_, hch⟩
              intro y hy
              simp only [List.head?_cons, Option.mem_def, Option.some.injEq] at hy
              subst hy
              exact hab.2))
            (by intro hm
                refine List.chain'_cons'.mpr ⟨?_, hsep hm⟩
                intro y hy
                simp only [List.head?_cons, Option.mem_def, Option.some.injEq] at hy
                subst hy
                have hbne : ¬ b = jl := by
                  intro hbe
                  exact hmb ⟨hm, hbe⟩
                have := hab.2
                show (a, b).2 < jl
                omega)
            (by rw [sumSpans_cons]
                omega)
          refine ⟨?_, ich, isep, isum⟩
          intro q hq
          have := ib q hq
          rw [wsum_cons]
          omega
    · simp only [spanFold, hc, Bool.false_eq_true, if_false]
      obtain ⟨ib, ich, isep, isum⟩ := ih (jl + w) acc sb hwt
        (by intro q hq
            have := hb q hq
            exact ⟨this.1, by omega⟩)
        hch hsep hsb
      refine ⟨?_, ich, isep, isum⟩
      intro q hq
      have := ib q hq
      rw [wsum_cons]
      omega

/-- Invariant of the run-merging fold: every run is `(first, last)` with
`first ≤ last`, and consecutive emitted runs are separated by at least
one non-matching index (maximality). -/
theorem mergeIdxGo_inv : ∀ (os : List Nat) (cur : Nat × Nat) (racc : List (Nat × Nat)),
    cur.1 ≤ cur.2 →
    (∀ y ∈ os.head?, cur.2 < y) →
    List.Chain' (· < ·) os →
    (∀ p ∈ racc, p.1 ≤ p.2) →
    List.Chain' (fun p q => q.2 + 1 < p.1) (cur :: racc) →
    (∀ p ∈ mergeIdxGo os cur racc, p.1 ≤ p.2) ∧
    List.Chain' (fun p q => p.2 + 1 < q.1) (mergeIdxGo os cur racc) := by
  intro os
  induction os with
  | nil =>
    intro cur racc hcur _ _ hracc hchain
    constructor
    · intro p hp
      simp only [mergeIdxGo] at hp
      rcases List.mem_cons.mp (List.mem_reverse.mp hp) with rfl | hp'
      · exact hcur
      · exact hracc p hp'
    · show List.Chain' _ (cur :: racc).reverse
      exact List.chain'_reverse.mpr (by simpa [flip] using hchain)
  | cons o os' ih =>
    intro cur racc hcur hhd hos hracc hchain
    have hco : cur.2 < o := hhd o rfl
    rcases List.chain'_cons'.mp hos with ⟨hos1, hos2⟩
    by_cases hadj : cur.2 + 1 = o
    · simp only [mergeIdxGo, hadj, if_true]
      rcases List.chain'_cons'.mp hchain with ⟨hh, ht⟩
      exact ih (cur.1, o) racc (by dsimp only; omega) (by intro y hy; exact hos1 y hy) hos2
        hracc (List.chain'_cons'.mpr ⟨hh, ht⟩)
    · simp only [mergeIdxGo, hadj, if_false]
      refine ih (o, o) (cur :: racc) (le_refl o) (by intro y hy; exact hos1 y hy) hos2 ?_ ?_
      · intro p hp
        rcases List.mem_cons.mp hp with rfl | hp'
        · exact hcur
        · exact hracc p hp'
      · refine List.chain'_cons'.mpr ⟨?_, hchain⟩
        intro y hy
        simp only [List.head?_cons, Option.mem_def, Option.some.injEq] at hy
        subst hy
        show cur.2 + 1 < o
        omega

theorem mergeIdx_inv {occ : List Nat} (h : List.Chain' (· < ·) occ) :
    (∀ p ∈ mergeIdx occ, p.1 ≤ p.2) ∧
    List.Chain' (fun p q => p.2 + 1 < q.1) (mergeIdx occ) := by
  cases occ with
  | nil => exact ⟨by intro p hp; simp [mergeIdx] at hp, by simp [mergeIdx]⟩
  | cons o os =>
    rcases List.chain'_cons'.mp h with ⟨h1, h2⟩
    exact mergeIdxGo_inv os (o, o) [] (le_refl o) (by intro y hy; exact h1 y hy) h2
      (by intro p hp; exact absurd hp (List.not_mem_nil p))
      (List.chain'_singleton _)

/-- C9: for a well-formed row, the spans collected by replace-all are
nonempty, within the string, strictly increasing and non-overlapping;
with merge on, consecutive spans have a byte gap (runs are maximal).
Likewise the locate-all indices are strictly increasing, and its merged
runs are well-formed and separated by at least one non-matching
code-point index. -/
theorem claim_C9 :
    ∀ (cls : Nat → Bool) (s : List Nat) (L : List (Nat × Nat)), decodeList s = some L →
      (∀ (m : Bool) (sp : List (Nat × Nat)) (sb : Nat),
        collectSpans cls m s = .ok (sp, sb) →
        (∀ p ∈ sp, p.1 < p.2 ∧ p.2 ≤ s.length) ∧
        List.Chain' (fun p q => p.2 ≤ q.1) sp ∧
        (m = true → List.Chain' (fun p q => p.2 < q.1) sp)) ∧
      (∀ occ : List Nat, collectIndices cls s = .ok occ →
        List.Chain' (· < ·) occ ∧
        (∀ x ∈ occ, 1 ≤ x ∧ x ≤ L.length) ∧
        (∀ p ∈ mergeIdx occ, p.1 ≤ p.2) ∧
        List.Chain' (fun p q => p.2 + 1 < q.1) (mergeIdx occ)) := by
  intro cls s L h
  have h' : decodeListGo s.length s = some L := h
  have hw1 := decodeListGo_w1 h'
  have hn : wsum L = s.length := decodeListGo_wsum h'
  constructor
  · intro m sp sb hcoll
    unfold collectSpans at hcoll
    rw [collectSpansGo_decode, exceptOfDecode_ok h'] at hcoll
    have hsp : (spanFold cls m L 0 [] 0).1 = sp := by
      have := congrArg (fun r : Except StriErr (List (Nat × Nat) × Nat) =>
        match r with | .ok v => v.1 | .error _ => []) hcoll
      simpa using this
    obtain ⟨ib, ich, isep, _⟩ := spanFold_inv cls m L 0 [] 0 hw1
      (by intro p hp; exact absurd hp (List.not_mem_nil p))
      List.chain'_nil (fun _ => List.chain'_nil) rfl
    rw [hsp] at ib ich isep
    refine ⟨?_, ich, isep⟩
    intro p hp
    have := ib p hp
    omega
  · intro occ hcoll
    unfold collectIndices at hcoll
    rw [collectIdxGo_decode, exceptOfDecode_ok h'] at hcoll
    have hocc : occFold cls L 0 = occ := by
      have := congrArg (fun r : Except StriErr (List Nat) =>
        match r with | .ok v => v | .error _ => []) hcoll
      simpa using this
    subst hocc
    have hchain := occFold_chain cls L 0
    obtain ⟨hm1, hm2⟩ := mergeIdx_inv hchain
    refine ⟨hchain, ?_, hm1, hm2⟩
    intro x hx
    have := occFold_bounds cls L 0 x hx
    omega

/-- C9 witness: `"aab a"` with class `{'a'}` and merge. -/
theorem claim_C9_witness :
    (∀ p ∈ [(0, 2), (3, 4)], p.1 < p.2 ∧ p.2 ≤ 4) ∧
    List.Chain' (fun p q : Nat × Nat => p.2 ≤ q.1) [(0, 2), (3, 4)] ∧
    (true = true → List.Chain' (fun p q : Nat × Nat => p.2 < q.1) [(0, 2), (3, 4)]) := by
  have h := (claim_C9 (fun c => c == 97) [97, 97, 98, 97]
    [(97, 1), (97, 1), (98, 1), (97, 1)] (by decide)).1 true [(0, 2), (3, 4)] 3 (by decide)
  exact h

/-! ## Claim C3: exact output sizing of the copy pass -/

/-- The copy pass emits exactly
`(n - jl) + (number of spans) * |repl| - (total matched bytes)`. -/
theorem copyPass_len (s r : List Nat) :
    ∀ (sp : List (Nat × Nat)) (jl : Nat),
      (∀ p ∈ sp, p.1 < p.2 ∧ p.2 ≤ s.length) →
      List.Chain' (fun p q => p.2 ≤ q.1) sp →
      (∀ y ∈ sp.head?, jl ≤ y.1) →
      jl ≤ s.length →
      (copyPass s r sp jl).length + sumSpans sp = (s.length - jl) + sp.length * r.length ∧
      sumSpans sp ≤ s.length - jl := by
  intro sp
  induction sp with
  | nil =>
    intro jl _ _ _ hjl
    simp [copyPass, sumSpans]
  | cons p t ih =>
    intro jl hb hch hhd hjl
    rcases p with ⟨a, b⟩
    have hab := hb (a, b) (List.mem_cons_self _ _)
    have hja : jl ≤ a := hhd (a, b) rfl
    rcases List.chain'_cons'.mp hch with ⟨hh, ht⟩
    obtain ⟨ihl, ihs⟩ := ih b
      (fun q hq => hb q (List.mem_cons_of_mem _ hq))
      ht
      (by intro y hy
          exact hh y hy)
      (by omega)
    show ((s.drop jl).take (a - jl) ++ r ++ copyPass s r t b).length + sumSpans ((a, b) :: t) = _ ∧ _
    rw [sumSpans_cons]
    simp only [List.length_append, List.length_take, List.length_drop, List.length_cons]
    have hmin : min (a - jl) (s.length - jl) = a - jl := by omega
    rw [hmin]
    constructor
    · have : (t.length + 1) * r.length = t.length * r.length + r.length := by ring
      rw [this]
      omega
    · omega

theorem findFirstGo_bounds (cls : Nat → Bool) : ∀ fuel (rem : List Nat) (jl a b : Nat),
    findFirstGo cls fuel rem jl = .ok (a, b) → jl ≤ a ∧ a ≤ b ∧ b ≤ jl + rem.length := by
  intro fuel
  induction fuel with
  | zero =>
    intro rem jl a b h
    cases rem with
    | nil =>
      simp only [findFirstGo, Except.ok.injEq, Prod.mk.injEq] at h
      omega
    | cons x t =>
      rw [findFirstGo_step] at h
      cases hd : decodeNext (x :: t) with
      | none => rw [hd] at h; exact Except.noConfusion h
      | some p => rcases p with ⟨cp, w⟩; rw [hd] at h; exact Except.noConfusion h
  | succ f ih =>
    intro rem jl a b h
    cases rem with
    | nil =>
      simp only [findFirstGo, Except.ok.injEq, Prod.mk.injEq] at h
      omega
    | cons x t =>
      rw [findFirstGo_step] at h
      cases hd : decodeNext (x :: t) with
      | none => rw [hd] at h; exact Except.noConfusion h
      | some p =>
        rcases p with ⟨cp, w⟩
        rw [hd] at h
        dsimp only at h
        have hwle : w ≤ (x :: t).length := decodeNext_w_le hd
        by_cases hc : cls cp = true
        · rw [if_pos hc] at h
          simp only [Except.ok.injEq, Prod.mk.injEq] at h
          omega
        · rw [if_neg hc] at h
          have := ih ((x :: t).drop w) (jl + w) a b h
          simp only [List.length_drop] at this
          omega

theorem findLastGo_bounds (cls : Nat → Bool) (s : List Nat) : ∀ fuel (pos a b : Nat),
    findLastGo cls s fuel pos = .ok (a, b) → a ≤ b ∧ b ≤ pos := by
  intro fuel
  induction fuel with
  | zero =>
    intro pos a b h
    rw [findLastGo_step] at h
    by_cases h0 : pos = 0
    · rw [if_pos h0] at h
      simp only [Except.ok.injEq, Prod.mk.injEq] at h
      omega
    · rw [if_neg h0] at h
      cases hd : decodePrev s pos with
      | none => rw [hd] at h; exact Except.noConfusion h
      | some p => rcases p with ⟨cp, st⟩; rw [hd] at h; exact Except.noConfusion h
  | succ f ih =>
    intro pos a b h
    rw [findLastGo_step] at h
    by_cases h0 : pos = 0
    · rw [if_pos h0] at h
      simp only [Except.ok.injEq, Prod.mk.injEq] at h
      omega
    · rw [if_neg h0] at h
      cases hd : decodePrev s pos with
      | none => rw [hd] at h; exact Except.noConfusion h
      | some p =>
        rcases p with ⟨cp, st⟩
        rw [hd] at h
        dsimp only at h
        have hst := decodePrev_lt hd
        by_cases hc : cls cp = true
        · rw [if_pos hc] at h
          simp only [Except.ok.injEq, Prod.mk.injEq] at h
          omega
        · rw [if_neg hc] at h
          have := ih st a b h
          omega

/-- C3: on a well-formed row with at least one span, the output of every
replace engine is the copy pass, whose byte length is exactly
`original_length + spans * replacement_length - matched_bytes`
(`buf_need`), with the subtrahend never exceeding the total. -/
theorem claim_C3 :
    ∀ (cls : Nat → Bool) (s : List Nat) (L : List (Nat × Nat)) (r : List Nat),
      decodeList s = some L →
      (∀ (m : Bool) (sp : List (Nat × Nat)) (sb : Nat),
        collectSpans cls m s = .ok (sp, sb) → sp ≠ [] →
        replaceAllRow (some s) (some cls) (some r) (some m) =
          .ok (some (copyPass s r sp 0)) ∧
        sb ≤ s.length ∧
        (copyPass s r sp 0).length = s.length + sp.length * r.length - sb) ∧
      (∀ jl j : Nat, findFirst cls s = .ok (jl, j) → j ≠ jl →
        replaceFLRow true (some s) (some cls) (some r) =
          .ok (some (s.take jl ++ r ++ s.drop j)) ∧
        jl < j ∧ j ≤ s.length ∧
        (s.take jl ++ r ++ s.drop j).length = s.length + r.length - (j - jl)) ∧
      (∀ jl j : Nat, findLast cls s = .ok (jl, j) → j ≠ jl →
        replaceFLRow false (some s) (some cls) (some r) =
          .ok (some (s.take jl ++ r ++ s.drop j)) ∧
        jl < j ∧ j ≤ s.length ∧
        (s.take jl ++ r ++ s.drop j).length = s.length + r.length - (j - jl)) := by
  intro cls s L r h
  have h' : decodeListGo s.length s = some L := h
  have hw1 := decodeListGo_w1 h'
  have hn : wsum L = s.length := decodeListGo_wsum h'
  refine ⟨?_, ?_, ?_⟩
  · intro m sp sb hcoll hne
    have hcoll' := hcoll
    unfold collectSpans at hcoll'
    rw [collectSpansGo_decode, exceptOfDecode_ok h'] at hcoll'
    have hpair : spanFold cls m L 0 [] 0 = (sp, sb) := by
      have := congrArg (fun x : Except StriErr (List (Nat × Nat) × Nat) =>
        match x with | .ok v => v | .error _ => ([], 0)) hcoll'
      simpa using this
    obtain ⟨ib, ich, _, isum⟩ := spanFold_inv cls m L 0 [] 0 hw1
      (by intro p hp; exact absurd hp (List.not_mem_nil p))
      List.chain'_nil (fun _ => List.chain'_nil) rfl
    rw [hpair] at ib ich isum
    dsimp only at ib ich isum
    have hbnd : ∀ p ∈ sp, p.1 < p.2 ∧ p.2 ≤ s.length := by
      intro p hp
      have := ib p hp
      omega
    obtain ⟨hcp, hcs⟩ := copyPass_len s r sp 0 hbnd ich
      (by intro y _; exact Nat.zero_le _) (Nat.zero_le _)
    refine ⟨?_, ?_, ?_⟩
    · show (match collectSpans cls m s with
        | Except.error e => Except.error e
        | Except.ok (sp, _) =>
          if sp.isEmpty then Except.ok (some s) else Except.ok (some (copyPass s r sp 0))) = _
      rw [hcoll]
      dsimp only
      have : sp.isEmpty = false := by
        cases sp with
        | nil => exact absurd rfl hne
        | cons q t => rfl
      rw [this]
      rfl
    · omega
    · omega
  · intro jl j hff hne
    have hb := findFirstGo_bounds cls s.length s 0 jl j hff
    have hlt : jl < j := by omega
    have hjn : j ≤ s.length := by
      simpa using hb.2.2
    refine ⟨?_, hlt, hjn, ?_⟩
    · show (match findFirst cls s with
        | Except.error e => Except.error e
        | Except.ok (jlast, j) =>
          if j = jlast then Except.ok (some s)
          else Except.ok (some (s.take jlast ++ r ++ s.drop j))) = _
      rw [hff]
      dsimp only
      rw [if_neg hne]
    · simp only [List.length_append, List.length_take, List.length_drop]
      have : min jl s.length = jl := by omega
      rw [this]
      omega
  · intro jl j hfl hne
    have hb := findLastGo_bounds cls s s.length s.length jl j hfl
    have hlt : jl < j := by omega
    have hjn : j ≤ s.length := hb.2
    refine ⟨?_, hlt, hjn, ?_⟩
    · show (match findLast cls s with
        | Except.error e => Except.error e
        | Except.ok (jlast, j) =>
          if j = jlast then Except.ok (some s)
          else Except.ok (some (s.take jlast ++ r ++ s.drop j))) = _
      rw [hfl]
      dsimp only
      rw [if_neg hne]
    · simp only [List.length_append, List.length_take, List.length_drop]
      have : min jl s.length = jl := by omega
      rw [this]
      omega

/-- C3 witness: `"aab"`, class `{'a'}`, replacement `"__"` (2 bytes),
merge on: one span of 2 bytes, `buf_need = 3 + 1*2 - 2 = 3`. -/
theorem claim_C3_witness :
    replaceAllRow (some [97, 97, 98]) (some (fun c => c == 97)) (some [95, 95]) (some true) =
      .ok (some (copyPass [97, 97, 98] [95, 95] [(0, 2)] 0)) ∧
    (2 : Nat) ≤ 3 ∧
    (copyPass [97, 97, 98] [95, 95] [(0, 2)] 0).length = 3 + 1 * 2 - 2 := by
  have h := (claim_C3 (fun c => c == 97) [97, 97, 98] [(97, 1), (97, 1), (98, 1)] [95, 95]
    (by decide)).1 true [(0, 2)] 2 (by decide) (by simp)
  exact ⟨h.1, h.2.1, h.2.2⟩

/-! ## Claim C10: empty replacement makes merge irrelevant -/

/-- Bytes emitted by the copy pass for the consumed spans (gap before
each span, then the replacement). -/
def cpFront (s r : List Nat) : List (Nat × Nat) → Nat → List Nat
  | [], _ => []
  | (a, b) :: rest, jl => (s.drop jl).take (a - jl) ++ r ++ cpFront s r rest b

/-- Cursor position after the copy pass has consumed the given spans. -/
def endJ : List (Nat × Nat) → Nat → Nat
  | [], jl => jl
  | (_, b) :: rest, _ => endJ rest b

theorem endJ_append : ∀ (xs ys : List (Nat × Nat)) (jl : Nat),
    endJ (xs ++ ys) jl = endJ ys (endJ xs jl) := by
  intro xs
  induction xs with
  | nil => intro ys jl; rfl
  | cons p t ih =>
    intro ys jl
    rcases p with ⟨a, b⟩
    simp only [List.cons_append, endJ]
    exact ih ys b

theorem cpFront_append (s r : List Nat) : ∀ (xs ys : List (Nat × Nat)) (jl : Nat),
    cpFront s r (xs ++ ys) jl = cpFront s r xs jl ++ cpFront s r ys (endJ xs jl) := by
  intro xs
  induction xs with
  | nil => intro ys jl; rfl
  | cons p t ih =>
    intro ys jl
    rcases p with ⟨a, b⟩
    simp only [List.cons_append, cpFront, endJ, List.append_eq]
    rw [ih ys b]
    simp [List.append_assoc]

theorem copyPass_decomp (s r : List Nat) : ∀ (sp : List (Nat × Nat)) (jl : Nat),
    copyPass s r sp jl = cpFront s r sp jl ++ s.drop (endJ sp jl) := by
  intro sp
  induction sp with
  | nil => intro jl; simp [copyPass, cpFront, endJ]
  | cons p t ih =>
    intro jl
    rcases p with ⟨a, b⟩
    simp only [copyPass, cpFront, endJ, ih b]
    simp [List.append_assoc]

/-- With an empty replacement, merging adjacent spans does not change the
bytes the copy pass emits: the two span-accumulation modes stay related
by equal emitted prefixes and equal cursor positions. -/
theorem c10_main (cls : Nat → Bool) (s : List Nat) :
    ∀ (L : List (Nat × Nat)) (jl : Nat) (accT accF : List (Nat × Nat)) (sbT sbF : Nat),
      cpFront s [] accT.reverse 0 = cpFront s [] accF.reverse 0 →
      endJ accT.reverse 0 = endJ accF.reverse 0 →
      copyPass s [] (spanFold cls true L jl accT sbT).1 0 =
        copyPass s [] (spanFold cls false L jl accF sbF).1 0 := by
  intro L
  induction L with
  | nil =>
    intro jl accT accF sbT sbF hcp hej
    show copyPass s [] accT.reverse 0 = copyPass s [] accF.reverse 0
    rw [copyPass_decomp, copyPass_decomp, hcp, hej]
  | cons p t ih =>
    intro jl accT accF sbT sbF hcp hej
    rcases p with ⟨cp, w⟩
    by_cases hc : cls cp = true
    · simp only [spanFold, hc, if_true]
      have hpF : spanPush false accF jl (jl + w) = (jl, jl + w) :: accF := by
        cases accF with
        | nil => rfl
        | cons q tl =>
          rcases q with ⟨a, b⟩
          simp only [spanPush]
          rw [if_neg (by simp)]
      rw [hpF]
      have hFcp : cpFront s [] ((jl, jl + w) :: accF).reverse 0 =
          cpFront s [] accF.reverse 0 ++
            (s.drop (endJ accF.reverse 0)).take (jl - endJ accF.reverse 0) := by
        rw [List.reverse_cons, cpFront_append]
        simp [cpFront]
      have hFej : endJ ((jl, jl + w) :: accF).reverse 0 = jl + w := by
        rw [List.reverse_cons, endJ_append]
        rfl
      rcases accT with _ | ⟨⟨aT, bT⟩, tlT⟩
      · rw [show spanPush true [] jl (jl + w) = [(jl, jl + w)] from rfl]
        apply ih
        · rw [hFcp]
          have h1 : cpFront s [] accF.reverse 0 = [] := by rw [← hcp]; rfl
          have h2 : endJ accF.reverse 0 = 0 := by rw [← hej]; rfl
          rw [h1, h2]
          simp [cpFront]
        · rw [hFej]
          rfl
      · have heT : endJ ((aT, bT) :: tlT).reverse 0 = bT := by
          rw [List.reverse_cons, endJ_append]
          rfl
        by_cases hmb : bT = jl
        · rw [show spanPush true ((aT, bT) :: tlT) jl (jl + w) = (aT, jl + w) :: tlT from by
            simp [spanPush, hmb]]
          apply ih
          · have hLHS : cpFront s [] ((aT, jl + w) :: tlT).reverse 0 =
                cpFront s [] ((aT, bT) :: tlT).reverse 0 := by
              rw [List.reverse_cons, List.reverse_cons, cpFront_append, cpFront_append]
              simp [cpFront]
            rw [hLHS, hcp, hFcp, ← hej, heT, hmb]
            simp
          · have hT : endJ ((aT, jl + w) :: tlT).reverse 0 = jl + w := by
              rw [List.reverse_cons, endJ_append]
              rfl
            rw [hT, hFej]
        · rw [show spanPush true ((aT, bT) :: tlT) jl (jl + w) =
              (jl, jl + w) :: (aT, bT) :: tlT from by
            simp only [spanPush]
            rw [if_neg (by simp [hmb])]]
          apply ih
          · rw [hFcp]
            rw [List.reverse_cons ((jl, jl + w)), cpFront_append, hcp, hej]
            simp [cpFront]
          · rw [hFej, List.reverse_cons ((jl, jl + w)), endJ_append]
            rfl
    · simp only [spanFold, hc, Bool.false_eq_true, if_false]
      exact ih (jl + w) accT accF sbT sbF hcp hej

theorem spanPush_ne_nil (m : Bool) (acc : List (Nat × Nat)) (jl j : Nat) :
    spanPush m acc jl j ≠ [] := by
  cases acc with
  | nil => simp [spanPush]
  | cons q tl =>
    rcases q with ⟨a, b⟩
    simp only [spanPush]
    split_ifs <;> simp

theorem spanFold_ne_nil (cls : Nat → Bool) (m : Bool) :
    ∀ (L : List (Nat × Nat)) (jl : Nat) (acc : List (Nat × Nat)) (sb : Nat),
      acc ≠ [] → (spanFold cls m L jl acc sb).1 ≠ [] := by
  intro L
  induction L with
  | nil =>
    intro jl acc sb hne
    simpa [spanFold] using hne
  | cons p t ih =>
    intro jl acc sb hne
    rcases p with ⟨cp, w⟩
    by_cases hc : cls cp = true
    · simp only [spanFold, hc, if_true]
      exact ih (jl + w) _ _ (spanPush_ne_nil m acc jl (jl + w))
    · simp only [spanFold, hc, Bool.false_eq_true, if_false]
      exact ih (jl + w) acc sb hne

theorem spanFold_nil_iff (cls : Nat → Bool) (m : Bool) :
    ∀ (L : List (Nat × Nat)) (jl sb : Nat),
      (spanFold cls m L jl [] sb).1 = [] ↔ (∀ p ∈ L, cls p.1 = false) := by
  intro L
  induction L with
  | nil =>
    intro jl sb
    simp [spanFold]
  | cons p t ih =>
    intro jl sb
    rcases p with ⟨cp, w⟩
    by_cases hc : cls cp = true
    · simp only [spanFold, hc, if_true]
      constructor
      · intro hnil
        exact absurd hnil (spanFold_ne_nil cls m t (jl + w) _ _ (spanPush_ne_nil m [] jl (jl + w)))
      · intro hall
        exact absurd hc (by simpa using hall (cp, w) (List.mem_cons_self _ _))
    · simp only [spanFold, hc, Bool.false_eq_true, if_false]
      rw [ih (jl + w) sb]
      constructor
      · intro hall q hq
        rcases List.mem_cons.mp hq with rfl | hq'
        · simpa using hc
        · exact hall q hq'
      · intro hall q hq
        exact hall q (List.mem_cons_of_mem _ hq)

/-- C10: with an empty replacement the replace-all output is the same
with and without run merging — merging only repartitions the matched
bytes into spans, and with no replacement bytes the span count does not
matter. -/
theorem claim_C10 :
    ∀ (cls : Nat → Bool) (s : List Nat) (L : List (Nat × Nat)), decodeList s = some L →
      replaceAllRow (some s) (some cls) (some []) (some true) =
        replaceAllRow (some s) (some cls) (some []) (some false) := by
  intro cls s L h
  have h' : decodeListGo s.length s = some L := h
  show (match collectSpans cls true s with
      | Except.error e => Except.error e
      | Except.ok (sp, _) =>
        if sp.isEmpty then Except.ok (some s) else Except.ok (some (copyPass s [] sp 0))) =
    (match collectSpans cls false s with
      | Except.error e => Except.error e
      | Except.ok (sp, _) =>
        if sp.isEmpty then Except.ok (some s) else Except.ok (some (copyPass s [] sp 0)))
  unfold collectSpans
  rw [collectSpansGo_decode, collectSpansGo_decode, exceptOfDecode_ok h', exceptOfDecode_ok h']
  dsimp only
  by_cases hall : ∀ p ∈ L, cls p.1 = false
  · rw [spanFold_nomatch cls true L 0 [] 0 hall, spanFold_nomatch cls false L 0 [] 0 hall]
  · have hneT : (spanFold cls true L 0 [] 0).1 ≠ [] := fun hnil =>
      hall ((spanFold_nil_iff cls true L 0 0).mp hnil)
    have hneF : (spanFold cls false L 0 [] 0).1 ≠ [] := fun hnil =>
      hall ((spanFold_nil_iff cls false L 0 0).mp hnil)
    have hieT : (spanFold cls true L 0 [] 0).1.isEmpty = false := by
      cases hT : (spanFold cls true L 0 [] 0).1 with
      | nil => exact absurd hT hneT
      | cons q tl => rfl
    have hieF : (spanFold cls false L 0 [] 0).1.isEmpty = false := by
      cases hF : (spanFold cls false L 0 [] 0).1 with
      | nil => exact absurd hF hneF
      | cons q tl => rfl
    rw [hieT, hieF]
    simp only [Bool.false_eq_true, if_false]
    rw [c10_main cls s L 0 [] [] 0 0 rfl rfl]

/-- C10 witness: `"aab a"`-like string `"aaba"`, class `{'a'}`, empty
replacement: merge on and off agree. -/
theorem claim_C10_witness :
    replaceAllRow (some [97, 97, 98, 97]) (some (fun c => c == 97)) (some []) (some true) =
      replaceAllRow (some [97, 97, 98, 97]) (some (fun c => c == 97)) (some []) (some false) :=
  claim_C10 (fun c => c == 97) [97, 97, 98, 97]
    [(97, 1), (97, 1), (98, 1), (97, 1)] (by decide)

/-! ## Claim C7: byte-adjacency merge vs index-adjacency merge -/

theorem drop_cons_succ {α : Type} {l : List α} {k : Nat} {p : α} {t : List α}
    (h : l.drop k = p :: t) :
    l.drop (k + 1) = t ∧ k < l.length ∧ l.take (k + 1) = l.take k ++ [p] := by
  have hk : k < l.length := by
    by_contra hle
    push_neg at hle
    rw [List.drop_eq_nil_of_le hle] at h
    exact List.noConfusion h
  refine ⟨?_, hk, ?_⟩
  · have hdd : List.drop 1 (l.drop k) = l.drop (k + 1) := List.drop_drop 1 k l
    rw [h] at hdd
    simpa using hdd.symm
  · conv_lhs => rw [← List.take_append_drop k l]
    rw [List.take_append_eq_append_take]
    have hlen : (l.take k).length = k := by
      rw [List.length_take]
      omega
    rw [List.take_take, Nat.min_eq_right (by omega), hlen,
      show k + 1 - k = 1 from by omega, h]
    rfl

/-- The fused induction: with merging on, the byte-span accumulator is
at every step the image of the index-run accumulator under the
index-to-byte-boundary map, and the byte-adjacency test agrees with the
index-adjacency test. -/
theorem c7_main (cls : Nat → Bool) {Lfull : List (Nat × Nat)} (hw : ∀ p ∈ Lfull, 1 ≤ p.2) :
    ∀ (Lr : List (Nat × Nat)) (k : Nat) (cur : Nat × Nat) (racc : List (Nat × Nat))
      (accS : List (Nat × Nat)) (sb : Nat),
      Lfull.drop k = Lr →
      1 ≤ cur.1 → cur.1 ≤ cur.2 → cur.2 ≤ k →
      accS = (cur :: racc).map
        (fun p => (wsum (Lfull.take (p.1 - 1)), wsum (Lfull.take p.2))) →
      (spanFold cls true Lr (wsum (Lfull.take k)) accS sb).1 =
        (mergeIdxGo (occFold cls Lr k) cur racc).map
          (fun p => (wsum (Lfull.take (p.1 - 1)), wsum (Lfull.take p.2))) := by
  intro Lr
  induction Lr with
  | nil =>
    intro k cur racc accS sb _ _ _ _ haccS
    show accS.reverse = _
    rw [haccS]
    show _ = ((cur :: racc).reverse).map _
    rw [List.map_reverse]
  | cons p Lr' ih =>
    intro k cur racc accS sb hdrop hc1 hc12 hc2k haccS
    rcases p with ⟨cp, w⟩
    obtain ⟨hdrop', hklen, htake⟩ := drop_cons_succ hdrop
    have hpos : wsum (Lfull.take (k + 1)) = wsum (Lfull.take k) + w := by
      rw [htake, wsum_append]
      simp [wsum]
    by_cases hc : cls cp = true
    · simp only [spanFold, occFold, hc, if_true]
      have hiff : (wsum (Lfull.take cur.2) = wsum (Lfull.take k)) ↔ cur.2 = k := by
        constructor
        · intro he
          by_contra hne
          have hlt : cur.2 < k := by omega
          have := wsum_take_lt hw cur.2 k hlt (by omega)
          omega
        · intro he
          rw [he]
      rw [haccS]
      by_cases hadj : cur.2 = k
      · have hpush : spanPush true
            ((cur :: racc).map
              (fun p => (wsum (Lfull.take (p.1 - 1)), wsum (Lfull.take p.2))))
            (wsum (Lfull.take k)) (wsum (Lfull.take k) + w) =
            ((cur.1, k + 1) :: racc).map
              (fun p => (wsum (Lfull.take (p.1 - 1)), wsum (Lfull.take p.2))) := by
          simp only [List.map_cons, spanPush]
          rw [if_pos ⟨trivial, by rw [hadj]⟩]
          rw [← hpos]
        rw [hpush]
        have hmerge : (if cur.2 + 1 = k + 1 then True else False) = True := by
          simp [hadj]
        rw [show mergeIdxGo ((k + 1) :: occFold cls Lr' (k + 1)) cur racc =
            mergeIdxGo (occFold cls Lr' (k + 1)) (cur.1, k + 1) racc from by
          simp only [mergeIdxGo]
          rw [if_pos (by omega)]]
        rw [← hpos]
        exact ih (k + 1) (cur.1, k + 1) racc _ _ hdrop' hc1 (by dsimp only; omega)
          (by dsimp only; omega) rfl
      · have hpush : spanPush true
            ((cur :: racc).map
              (fun p => (wsum (Lfull.take (p.1 - 1)), wsum (Lfull.take p.2))))
            (wsum (Lfull.take k)) (wsum (Lfull.take k) + w) =
            ((k + 1, k + 1) :: cur :: racc).map
              (fun p => (wsum (Lfull.take (p.1 - 1)), wsum (Lfull.take p.2))) := by
          simp only [List.map_cons, spanPush]
          rw [if_neg (by
            intro hcontra
            exact hadj (hiff.mp hcontra.2))]
          rw [← hpos]
          simp only [Nat.add_sub_cancel]
        rw [hpush]
        rw [show mergeIdxGo ((k + 1) :: occFold cls Lr' (k + 1)) cur racc =
            mergeIdxGo (occFold cls Lr' (k + 1)) (k + 1, k + 1) (cur :: racc) from by
          simp only [mergeIdxGo]
          rw [if_neg (by omega)]]
        rw [← hpos]
        exact ih (k + 1) (k + 1, k + 1) (cur :: racc) _ _ hdrop' (by omega) (le_refl _)
          (le_refl _) rfl
    · simp only [spanFold, occFold, hc, Bool.false_eq_true, if_false]
      rw [← hpos]
      exact ih (k + 1) cur racc accS sb hdrop' hc1 hc12 (by omega) haccS

theorem c7_pre (cls : Nat → Bool) {Lfull : List (Nat × Nat)} (hw : ∀ p ∈ Lfull, 1 ≤ p.2) :
    ∀ (Lr : List (Nat × Nat)) (k sb : Nat), Lfull.drop k = Lr →
      (spanFold cls true Lr (wsum (Lfull.take k)) [] sb).1 =
        (mergeIdx (occFold cls Lr k)).map
          (fun p => (wsum (Lfull.take (p.1 - 1)), wsum (Lfull.take p.2))) := by
  intro Lr
  induction Lr with
  | nil => intro k sb _; rfl
  | cons p Lr' ih =>
    intro k sb hdrop
    rcases p with ⟨cp, w⟩
    obtain ⟨hdrop', hklen, htake⟩ := drop_cons_succ hdrop
    have hpos : wsum (Lfull.take (k + 1)) = wsum (Lfull.take k) + w := by
      rw [htake, wsum_append]
      simp [wsum]
    cases hc : cls cp with
    | false =>
      simp only [spanFold, occFold, hc, Bool.false_eq_true, if_false]
      rw [← hpos]
      exact ih (k + 1) sb hdrop'
    | true =>
      simp only [spanFold, occFold, hc, if_true]
      rw [show spanPush true [] (wsum (Lfull.take k)) (wsum (Lfull.take k) + w) =
          [(wsum (Lfull.take k), wsum (Lfull.take k) + w)] from rfl]
      rw [show mergeIdx ((k + 1) :: occFold cls Lr' (k + 1)) =
          mergeIdxGo (occFold cls Lr' (k + 1)) (k + 1, k + 1) [] from rfl]
      rw [← hpos]
      refine c7_main cls hw Lr' (k + 1) (k + 1, k + 1) [] _ _ hdrop' (by omega) (le_refl _)
        (le_refl _) ?_
      simp only [List.map_cons, List.map_nil, Nat.add_sub_cancel]

/-- C7: with merging on, the byte spans collected by the Replace Engine
are exactly the images of the Locate Engine's merged index runs under
the code-point-index-to-byte-boundary map: the two merge tests group the
same matched code points into the same runs. -/
theorem claim_C7 :
    ∀ (cls : Nat → Bool) (s : List Nat) (L : List (Nat × Nat)), decodeList s = some L →
      ∀ (sp : List (Nat × Nat)) (sb : Nat) (occ : List Nat),
        collectSpans cls true s = .ok (sp, sb) →
        collectIndices cls s = .ok occ →
        sp = (mergeIdx occ).map
          (fun p => (wsum (L.take (p.1 - 1)), wsum (L.take p.2))) := by
  intro cls s L h sp sb occ hsp hocc
  have h' : decodeListGo s.length s = some L := h
  have hw1 := decodeListGo_w1 h'
  unfold collectSpans at hsp
  rw [collectSpansGo_decode, exceptOfDecode_ok h'] at hsp
  unfold collectIndices at hocc
  rw [collectIdxGo_decode, exceptOfDecode_ok h'] at hocc
  have hsp' : (spanFold cls true L 0 [] 0).1 = sp := by
    have := congrArg (fun x : Except StriErr (List (Nat × Nat) × Nat) =>
      match x with | .ok v => v.1 | .error _ => []) hsp
    simpa using this
  have hocc' : occFold cls L 0 = occ := by
    have := congrArg (fun x : Except StriErr (List Nat) =>
      match x with | .ok v => v | .error _ => []) hocc
    simpa using this
  rw [← hsp', ← hocc']
  have := c7_pre cls hw1 L 0 0 (by simp)
  simpa [wsum] using this

/-- C7 witness: `"aaba"`, class `{'a'}`: byte spans `[(0,2),(3,4)]` are
the boundary images of the merged index runs `[(1,2),(4,4)]`. -/
theorem claim_C7_witness :
    ([(0, 2), (3, 4)] : List (Nat × Nat)) =
      (mergeIdx [1, 2, 4]).map
        (fun p => (wsum ([(97, 1), (97, 1), (98, 1), (97, 1)].take (p.1 - 1)),
          wsum ([(97, 1), (97, 1), (98, 1), (97, 1)].take p.2))) :=
  claim_C7 (fun c => c == 97) [97, 97, 98, 97] [(97, 1), (97, 1), (98, 1), (97, 1)]
    (by decide) [(0, 2), (3, 4)] 3 [1, 2, 4] (by decide) (by decide)
